import Mathlib

/-!
# Verification of the empiriqa core against its specification

Shallow embedding of the empiriqa sources (`queue.rs`, `render.rs`,
`operator.rs`, `prompt.rs`, `pipeline.rs`) and proofs settling the frozen
claims about the natural-language specification.

Machine integers (`usize`, `u64`) are modelled by `Nat` with exact
arithmetic; none of the claims under scrutiny depends on wrap-around
behaviour of the sizes involved in their statements.
-/

/- ------------------------------------------------------------------ -/
/- `src/queue.rs` — bounded scrollback queue                           -/
/- ------------------------------------------------------------------ -/

/-- `queue.rs`: empty items are replaced with a null character because the
terminal ignores empty items (`"\0".into()`). -/
def nullItem : String := "\u0000"

/-- `Queue::push` from `queue.rs` (lines 18–29): pop the front element when
the current length already exceeds `capacity`, then push the item (or the
null placeholder when the item is empty) at the back.  The `VecDeque` is
modelled as a list whose head is the front of the deque. -/
def Queue.push (capacity : Nat) (buf : List String) (item : String) : List String :=
  let buf := if buf.length > capacity then buf.drop 1 else buf
  buf ++ [if item.isEmpty then nullItem else item]

/-- Pushing a whole batch of lines, oldest first. -/
def Queue.pushAll (capacity : Nat) (buf : List String) (items : List String) : List String :=
  items.foldl (Queue.push capacity) buf


/- ------------------------------------------------------------------ -/
/- `src/render.rs` — rational editor keys                              -/
/- ------------------------------------------------------------------ -/

/-- `render.rs`: `EditorIndex(pub usize, pub usize)` — numerator and
denominator of a rational key. -/
structure EditorIndex where
  n : Nat
  d : Nat
deriving DecidableEq, Repr

/-- `render.rs` line 21: `HEAD_INDEX = EditorIndex(1, 1)`. -/
def HEAD_INDEX : EditorIndex := ⟨1, 1⟩

/-- `Ord for EditorIndex` (`render.rs` lines 29–36): compare `a/b` with
`c/d` by comparing `a*d` with `b*c`. -/
def EditorIndex.cmp (a b : EditorIndex) : Ordering :=
  compare (a.n * b.d) (a.d * b.n)

/-- Strict order induced by `EditorIndex.cmp`: `a.cmp b = .lt`. -/
def EditorIndex.lt (a b : EditorIndex) : Prop :=
  a.n * b.d < a.d * b.n

instance (a b : EditorIndex) : Decidable (a.lt b) :=
  inferInstanceAs (Decidable (_ < _))

/-- `EditorIndex::mediant` (`render.rs` lines 38–43). -/
def EditorIndex.mediant (a b : EditorIndex) : EditorIndex :=
  ⟨a.n + b.n, a.d + b.d⟩

theorem EditorIndex.cmp_eq_lt {a b : EditorIndex} :
    a.cmp b = Ordering.lt ↔ a.lt b :=
  Nat.compare_eq_lt

theorem EditorIndex.cmp_eq_gt {a b : EditorIndex} :
    a.cmp b = Ordering.gt ↔ b.lt a := by
  unfold EditorIndex.cmp EditorIndex.lt
  rw [Nat.compare_eq_gt, Nat.mul_comm b.n a.d, Nat.mul_comm b.d a.n]

theorem EditorIndex.cmp_eq_eq {a b : EditorIndex} :
    a.cmp b = Ordering.eq ↔ a.n * b.d = a.d * b.n :=
  Nat.compare_eq_eq

theorem EditorIndex.lt_irrefl (a : EditorIndex) : ¬ a.lt a := by
  simp [EditorIndex.lt, Nat.mul_comm]

theorem EditorIndex.lt_asymm {a b : EditorIndex} (h : a.lt b) : ¬ b.lt a := by
  simp only [EditorIndex.lt] at *
  rw [Nat.mul_comm b.n a.d, Nat.mul_comm b.d a.n]
  omega

/-- Transitivity of the cross-multiplication order.  No positivity side
conditions are needed: `a.lt b` already forces `a.d * b.n > 0`. -/
theorem EditorIndex.lt_trans {a b c : EditorIndex}
    (h1 : a.lt b) (h2 : b.lt c) : a.lt c := by
  simp only [EditorIndex.lt] at *
  have h3 : (a.n * b.d) * (b.n * c.d) < (a.d * b.n) * (b.d * c.n) :=
    mul_lt_mul'' h1 h2 (Nat.zero_le _) (Nat.zero_le _)
  -- rearrange both sides so that the common positive factor b.n * b.d cancels
  have key : b.n * b.d * (a.n * c.d) < b.n * b.d * (a.d * c.n) := by
    calc b.n * b.d * (a.n * c.d) = (a.n * b.d) * (b.n * c.d) := by ring
    _ < (a.d * b.n) * (b.d * c.n) := h3
    _ = b.n * b.d * (a.d * c.n) := by ring
  exact Nat.lt_of_mul_lt_mul_left key

/-- The mediant is strictly above the smaller operand. -/
theorem EditorIndex.mediant_lt_left {a b : EditorIndex} (h : a.lt b) :
    a.lt (EditorIndex.mediant a b) := by
  simp only [EditorIndex.lt] at h
  show a.n * (a.d + b.d) < a.d * (a.n + b.n)
  calc a.n * (a.d + b.d) = a.d * a.n + a.n * b.d := by ring
  _ < a.d * a.n + a.d * b.n := by omega
  _ = a.d * (a.n + b.n) := by ring

/-- The mediant is strictly below the larger operand. -/
theorem EditorIndex.mediant_lt_right {a b : EditorIndex} (h : a.lt b) :
    (EditorIndex.mediant a b).lt b := by
  simp only [EditorIndex.lt] at h
  show (a.n + b.n) * b.d < (a.d + b.d) * b.n
  calc (a.n + b.n) * b.d = a.n * b.d + b.n * b.d := by ring
  _ < a.d * b.n + b.n * b.d := by omega
  _ = (a.d + b.d) * b.n := by ring

/- ------------------------------------------------------------------ -/
/- Claim C1 — scrollback queue capacity bound                          -/
/- ------------------------------------------------------------------ -/

/-- C1 (code_bug evaluation): `Queue::push` evicts the front element only
when the length already *exceeds* the capacity (`len > capacity` instead of
`len >= capacity`), so a queue of capacity 1 stabilises at 2 stored lines.
Pushing "a", "b", "c" into an empty queue of capacity 1 leaves the 2 most
recent lines, contradicting the claimed bound of `capacity` lines. -/
theorem claim_C1_queue_overflow_eval :
    Queue.pushAll 1 [] ["a", "b", "c"] = ["b", "c"] ∧
    (Queue.pushAll 1 [] ["a", "b", "c"]).length = 2 := by
  constructor <;> rfl

/- ------------------------------------------------------------------ -/
/- Claim C4 — mediant strictly between its operands                    -/
/- ------------------------------------------------------------------ -/

/-- C4 (confirmed): for keys `(a,b) < (c,d)` under the cross-multiplication
order of `Ord for EditorIndex`, the mediant `(a+c, b+d)` is strictly greater
than the first operand and strictly less than the second, hence distinct
from both. -/
theorem claim_C4_mediant_between (a b : EditorIndex) (h : a.lt b) :
    a.lt (EditorIndex.mediant a b) ∧ (EditorIndex.mediant a b).lt b ∧
    EditorIndex.mediant a b ≠ a ∧ EditorIndex.mediant a b ≠ b := by
  have h1 : a.lt (EditorIndex.mediant a b) := EditorIndex.mediant_lt_left h
  have h2 : (EditorIndex.mediant a b).lt b := EditorIndex.mediant_lt_right h
  refine ⟨h1, h2, fun heq => ?_, fun heq => ?_⟩
  · rw [heq] at h1
    exact EditorIndex.lt_irrefl a h1
  · rw [heq] at h2
    exact EditorIndex.lt_irrefl b h2

/-- Witness for C4 at the concrete keys 1/2 < 1/1. -/
theorem claim_C4_witness :
    EditorIndex.lt ⟨1, 2⟩ ⟨1, 1⟩ ∧
    (EditorIndex.lt ⟨1, 2⟩ (EditorIndex.mediant ⟨1, 2⟩ ⟨1, 1⟩) ∧
     EditorIndex.lt (EditorIndex.mediant ⟨1, 2⟩ ⟨1, 1⟩) ⟨1, 1⟩ ∧
     EditorIndex.mediant ⟨1, 2⟩ ⟨1, 1⟩ ≠ ⟨1, 2⟩ ∧
     EditorIndex.mediant ⟨1, 2⟩ ⟨1, 1⟩ ≠ ⟨1, 1⟩) :=
  ⟨by decide, claim_C4_mediant_between ⟨1, 2⟩ ⟨1, 1⟩ (by decide)⟩

/- ------------------------------------------------------------------ -/
/- `src/prompt.rs` — ordered editor registry                           -/
/- ------------------------------------------------------------------ -/

/-- `Direction` from `prompt.rs` (lines 182–194). -/
inductive Direction where
  | up (d : Nat)
  | down (d : Nat)
deriving DecidableEq, Repr

/-- `Direction::distance`. -/
def Direction.distance : Direction → Nat
  | .up d => d
  | .down d => d

/-!
The `EditorMap` (`BTreeMap<EditorIndex, Editor>`) is modelled by its key
sequence in ascending `Ord` order — exactly the order `BTreeMap` iterates
in.  All key-structure operations of `prompt.rs` are translated on this
list.  `BTreeMap` lookups (`contains_key`, `insert`, `remove`) compare keys
with `Ord for EditorIndex` (cross-multiplication), while `is_last` and the
`skip_while` of `seek_index` compare numerator/denominator componentwise;
the model keeps that distinction.
-/

/-- `BTreeMap::contains_key`: some stored key compares `Equal` to `k`. -/
def containsKey (m : List EditorIndex) (k : EditorIndex) : Bool :=
  m.any (fun x => x.cmp k == Ordering.eq)

/-- The cursor loop at the end of `EditorMap::seek_index` (lines 305–314):
walk along `l`, stopping after `remaining` steps or at the end of `l`. -/
def walkSeek (cur : EditorIndex) (remaining : Nat) : List EditorIndex → EditorIndex
  | [] => cur
  | x :: xs =>
    match remaining with
    | 0 => cur
    | r + 1 => walkSeek x r xs

/-- `EditorMap::seek_index` (`prompt.rs` lines 278–317).  `Direction::Up`
walks the keys in reverse order after skipping up to (and including) `k`;
`Direction::Down` walks them forward after skipping up to `k`. -/
def seek_index (m : List EditorIndex) (k : EditorIndex) (dir : Direction) :
    Except String EditorIndex :=
  if ¬ containsKey m k then .error "not found"
  else
    let l := match dir with
      | .up _ => ((m.reverse).dropWhile (fun x => !(x == k))).drop 1
      | .down _ => (m.dropWhile (fun x => !(x == k))).drop 1
    .ok (walkSeek k dir.distance l)

/-- `EditorMap::is_last` (lines 244–250): componentwise comparison with the
last key. -/
def is_last (m : List EditorIndex) (k : EditorIndex) : Bool :=
  match m.getLast? with
  | some l => l == k
  | none => false

/-- `EditorMap::new_index` (lines 252–263). -/
def new_index (m : List EditorIndex) (k : EditorIndex) : Except String EditorIndex :=
  if is_last m k then .ok ⟨k.n + 1, k.d⟩
  else do
    let s ← seek_index m k (.down 1)
    .ok (EditorIndex.mediant k s)

/-- `EditorMap::shift_index` (lines 265–276); `saturating_sub` is `Nat`
subtraction. -/
def shift_index (m : List EditorIndex) (k : EditorIndex) (u d : Nat) :
    Except String EditorIndex :=
  match compare u d with
  | .lt => seek_index m k (.down (d - u))
  | .gt => seek_index m k (.up (u - d))
  | .eq => .ok k

/-- `BTreeMap::insert` restricted to the key sequence: place `k` at its
ordered position; when an order-equal key is already stored only the value
changes, the stored key stays. -/
def insertKey (m : List EditorIndex) (k : EditorIndex) : List EditorIndex :=
  match m with
  | [] => [k]
  | x :: xs =>
    match k.cmp x with
    | .lt => k :: x :: xs
    | .eq => x :: xs
    | .gt => x :: insertKey xs k

/-- `BTreeMap::remove` restricted to the key sequence. -/
def removeKey (m : List EditorIndex) (k : EditorIndex) : List EditorIndex :=
  match m with
  | [] => []
  | x :: xs =>
    match k.cmp x with
    | .lt => x :: xs
    | .eq => xs
    | .gt => x :: removeKey xs k

/-- `Prompt::insert_editor` (lines 596–613), key structure only: compute
the new index (`unwrap` modelled as `Option`) and insert it. -/
def insert_editor (cur : EditorIndex) (m : List EditorIndex) :
    Option (EditorIndex × List EditorIndex) :=
  match new_index m cur with
  | .ok nk => some (nk, insertKey m nk)
  | .error _ => none

/-- `Prompt::remove_editor` (`prompt.rs` lines 626–641): removing the head
key is a no-op returning the head key; otherwise seek one step up (the
`unwrap` is modelled as `Option`) and remove the given key. -/
def remove_editor (cur : EditorIndex) (m : List EditorIndex) :
    Option (EditorIndex × List EditorIndex) :=
  if cur == HEAD_INDEX then some (cur, m)
  else
    match seek_index m cur (.up 1) with
    | .ok prev => some (prev, removeKey m cur)
    | .error _ => none

/-- `Prompt::pop_editors` (`prompt.rs` lines 615–624): pop the last key up
to `times` times, stopping early when the head key becomes last; returns
the popped keys (most recent first) and the remaining registry.  `none`
models the `unwrap` panic on an empty registry. -/
def pop_editors (m : List EditorIndex) (times : Nat) :
    Option (List EditorIndex × List EditorIndex) :=
  match times with
  | 0 => some ([], m)
  | t + 1 =>
    match m.getLast? with
    | some l =>
      if l == HEAD_INDEX then some ([], m)
      else do
        let r ← pop_editors m.dropLast t
        some (l :: r.1, r.2)
    | none => none

/- ------------------------------------------------------------------ -/
/- `src/prompt.rs` / `src/pipeline.rs` — submission                    -/
/- ------------------------------------------------------------------ -/

/-!
Command texts are modelled as lists of characters (`Str`), so that the
Rust `str::trim` used by `get_all_texts` and `parse_command` can be given
as a structurally recursive, kernel-computable definition.
-/

/-- A command text. -/
abbrev Str : Type := List Char

/-- `str::trim`: drop leading and trailing whitespace. -/
def strTrim (s : Str) : Str :=
  ((List.dropWhile Char.isWhitespace s).reverse.dropWhile
    Char.isWhitespace).reverse

/-- A registry entry as far as submission is concerned: the buffer text
(`state.texteditor.text_without_cursor().to_string()`) and the ignore
flag. -/
structure Editor where
  text : Str
  ignore : Bool

/-- `Prompt::get_all_texts` (`prompt.rs` lines 585–594): the texts of the
non-ignored entries, in key order, with blank (whitespace-only) commands
dropped. -/
def get_all_texts (editors : List Editor) : List Str :=
  ((editors.filter (fun e => !e.ignore)).map (fun e => e.text)).filter
    (fun cmd => !(strTrim cmd).isEmpty)

/-- The error cases of `pipeline.rs`. -/
inductive SpawnError where
  | emptyPipeline              -- "No commands provided"
  | invalidShell (cmd : Str)   -- `shlex::split` returned `None`
  | emptyCommand               -- "The command is empty"
  | notFound (program : Str)   -- spawn failed with `ErrorKind::NotFound`
deriving DecidableEq

/-- External collaborators of `pipeline.rs`: the `shlex` tokenizer and the
operating system's ability to spawn a given program. -/
structure PipelineEnv where
  shlexSplit : Str → Option (List Str)
  spawnOk : Str → Bool

/-- `parse_command` (`pipeline.rs` lines 23–36). -/
def parse_command (env : PipelineEnv) (cmd : Str) :
    Except SpawnError (List Str) :=
  match env.shlexSplit (strTrim cmd) with
  | none => .error (.invalidShell cmd)
  | some parts =>
    if parts.isEmpty then .error .emptyCommand else .ok parts

/-- One `Stage::spawn` (`pipeline.rs` lines 120–129 and 136–166): parse the
command, then start the process (`setup_command`'s `NotFound` branch).  A
stage is represented by its token list. -/
def stage_spawn (env : PipelineEnv) (cmd : Str) :
    Except SpawnError (List Str) := do
  let parts ← parse_command env cmd
  let program := parts.headD []
  if env.spawnOk program then .ok parts else .error (.notFound program)

/-- `Pipeline` (`pipeline.rs` lines 173–176): an optional head stage and
the pipe stages, each represented by its token list. -/
structure Pipeline where
  head : Option (List Str)
  pipes : List (List Str)

/-- The number of stages of a pipeline. -/
def Pipeline.numStages (p : Pipeline) : Nat :=
  (if p.head.isSome then 1 else 0) + p.pipes.length

/-- `Pipeline::spawn` (`pipeline.rs` lines 179–212): error on an empty
command list; a single command spawns only a head stage; otherwise spawn
the head from `cmds[0]`, pipe stages from `cmds[1..len-1]` left to right,
and a final pipe stage from `cmds[len-1]`. -/
def Pipeline.spawn (env : PipelineEnv) (cmds : List Str) :
    Except SpawnError Pipeline :=
  match cmds with
  | [] => .error .emptyPipeline
  | [c] => do
      let head ← stage_spawn env c
      .ok ⟨some head, []⟩
  | c :: rest => do
      let head ← stage_spawn env c
      let mid ← (rest.dropLast).mapM (stage_spawn env)
      let lastStage ← stage_spawn env (rest.getLastD [])
      .ok ⟨some head, mid ++ [lastStage]⟩

/- ------------------------------------------------------------------ -/
/- Registry well-formedness and helper lemmas                          -/
/- ------------------------------------------------------------------ -/

/-- Well-formed key sequence: strictly ascending under the
cross-multiplication order, with positive numerators and denominators
(every key ever stored is built from `HEAD_INDEX = (1,1)` by mediants and
numerator increments). -/
def WFKeys (m : List EditorIndex) : Prop :=
  List.Pairwise EditorIndex.lt m ∧ ∀ j ∈ m, 1 ≤ j.n ∧ 1 ≤ j.d

instance (m : List EditorIndex) : Decidable (WFKeys m) := by
  unfold WFKeys
  infer_instance

theorem mem_decomp {m : List EditorIndex} {k : EditorIndex}
    (hp : List.Pairwise EditorIndex.lt m) (hk : k ∈ m) :
    ∃ pre post, m = pre ++ k :: post ∧ (∀ x ∈ pre, x.lt k) ∧
      ∀ x ∈ post, k.lt x := by
  obtain ⟨pre, post, rfl⟩ := List.append_of_mem hk
  obtain ⟨_, hpost, hcross⟩ := List.pairwise_append.mp hp
  exact ⟨pre, post, rfl,
    fun x hx => hcross x hx k (List.mem_cons_self _ _),
    (List.pairwise_cons.mp hpost).1⟩

theorem ne_of_lt_key {a b : EditorIndex} (h : a.lt b) : a ≠ b :=
  fun he => EditorIndex.lt_irrefl b (he ▸ h)

theorem dropWhile_find {k : EditorIndex} {pre post : List EditorIndex}
    (h : ∀ x ∈ pre, x ≠ k) :
    (pre ++ k :: post).dropWhile (fun x => !(x == k)) = k :: post := by
  induction pre with
  | nil => simp [List.dropWhile_cons]
  | cons a t ih =>
    have ha : a ≠ k := h a (List.mem_cons_self a t)
    simp only [List.cons_append, List.dropWhile_cons]
    rw [if_pos (by simp [ha])]
    exact ih fun x hx => h x (List.mem_cons_of_mem a hx)

theorem containsKey_of_mem {m : List EditorIndex} {k : EditorIndex}
    (hk : k ∈ m) : containsKey m k = true := by
  simp only [containsKey, List.any_eq_true]
  refine ⟨k, hk, ?_⟩
  rw [EditorIndex.cmp_eq_eq.mpr (Nat.mul_comm k.n k.d)]
  rfl

theorem getD_default_irrel (l : List EditorIndex) (i : Nat) (h : i < l.length)
    (d1 d2 : EditorIndex) : l.getD i d1 = l.getD i d2 := by
  induction l generalizing i with
  | nil => simp at h
  | cons x xs ih =>
    match i with
    | 0 => rfl
    | j + 1 =>
      simp only [List.getD_cons_succ]
      exact ih j (by simpa using h)

theorem walkSeek_eq (k : EditorIndex) (steps : Nat) (l : List EditorIndex) :
    walkSeek k steps l = (k :: l).getD (min steps l.length) k := by
  induction l generalizing k steps with
  | nil => simp [walkSeek]
  | cons x xs ih =>
    match steps with
    | 0 => simp [walkSeek]
    | r + 1 =>
      show walkSeek x r xs = _
      rw [ih x r]
      have hmin : min (r + 1) (xs.length + 1) = min r xs.length + 1 := by omega
      simp only [List.length_cons, hmin, List.getD_cons_succ]
      exact getD_default_irrel _ _ (by simp only [List.length_cons]; omega) x k

/-- `seek_index` downwards from a key decomposition: the walk happens on
the suffix after `k`, clamped at the last entry. -/
theorem seek_index_down {m pre post : List EditorIndex} {k : EditorIndex}
    (hm : m = pre ++ k :: post) (hpre : ∀ x ∈ pre, x ≠ k) (steps : Nat) :
    seek_index m k (.down steps) =
      .ok ((k :: post).getD (min steps post.length) k) := by
  subst hm
  rw [seek_index, if_neg (by simp [containsKey_of_mem (List.mem_append_right pre (List.mem_cons_self k post))])]
  simp only [Direction.distance]
  rw [dropWhile_find hpre, List.drop_one, List.tail_cons, walkSeek_eq]

/-- `seek_index` upwards from a key decomposition: the walk happens on the
reversed prefix before `k`, clamped at the first entry. -/
theorem seek_index_up {m pre post : List EditorIndex} {k : EditorIndex}
    (hm : m = pre ++ k :: post) (hpost : ∀ x ∈ post, x ≠ k) (steps : Nat) :
    seek_index m k (.up steps) =
      .ok ((k :: pre.reverse).getD (min steps pre.length) k) := by
  subst hm
  rw [seek_index, if_neg (by simp [containsKey_of_mem (List.mem_append_right pre (List.mem_cons_self k post))])]
  simp only [Direction.distance]
  have hrev : (pre ++ k :: post).reverse = post.reverse ++ k :: pre.reverse := by
    simp
  rw [hrev, dropWhile_find (fun x hx => hpost x (List.mem_reverse.mp hx)),
    List.drop_one, List.tail_cons, walkSeek_eq, List.length_reverse]

theorem EditorIndex.cmp_self (k : EditorIndex) : k.cmp k = Ordering.eq :=
  EditorIndex.cmp_eq_eq.mpr (Nat.mul_comm k.n k.d)

theorem insertKey_mem {m : List EditorIndex} {k y : EditorIndex} :
    y ∈ insertKey m k → y ∈ m ∨ y = k := by
  induction m with
  | nil =>
    intro hy
    rw [insertKey, List.mem_singleton] at hy
    exact Or.inr hy
  | cons x xs ih =>
    intro hy
    rw [insertKey] at hy
    split at hy
    · rcases List.mem_cons.mp hy with h | h
      · exact Or.inr h
      · exact Or.inl h
    · exact Or.inl hy
    · rcases List.mem_cons.mp hy with h | h
      · exact Or.inl (h ▸ List.mem_cons_self x xs)
      · rcases ih h with h2 | h2
        · exact Or.inl (List.mem_cons_of_mem x h2)
        · exact Or.inr h2

/-- Ordered insertion keeps the key sequence strictly ascending, for any
inserted key whatsoever (an order-equal insertion leaves the keys
unchanged). -/
theorem insertKey_pairwise {m : List EditorIndex} {k : EditorIndex}
    (hp : List.Pairwise EditorIndex.lt m) :
    List.Pairwise EditorIndex.lt (insertKey m k) := by
  induction m with
  | nil => simp [insertKey]
  | cons x xs ih =>
    obtain ⟨hx, hxs⟩ := List.pairwise_cons.mp hp
    rw [insertKey]
    split
    · rename_i hc
      have hkx : k.lt x := EditorIndex.cmp_eq_lt.mp hc
      refine List.pairwise_cons.mpr ⟨fun y hy => ?_, hp⟩
      rcases List.mem_cons.mp hy with rfl | hy
      · exact hkx
      · exact EditorIndex.lt_trans hkx (hx y hy)
    · exact hp
    · rename_i hc
      have hxk : x.lt k := EditorIndex.cmp_eq_gt.mp hc
      refine List.pairwise_cons.mpr ⟨fun y hy => ?_, ih hxs⟩
      rcases insertKey_mem hy with h | rfl
      · exact hx y h
      · exact hxk

/-- Inserting a key strictly above all stored keys appends it. -/
theorem insertKey_append_last {m : List EditorIndex} {nk : EditorIndex}
    (h : ∀ j ∈ m, j.lt nk) : insertKey m nk = m ++ [nk] := by
  induction m with
  | nil => rfl
  | cons x xs ih =>
    rw [insertKey,
      EditorIndex.cmp_eq_gt.mpr (h x (List.mem_cons_self x xs)),
      ih fun j hj => h j (List.mem_cons_of_mem x hj)]
    rfl

/-- Inserting a key strictly above the first element keeps that first
element in place. -/
theorem insertKey_cons_gt {x : EditorIndex} {xs : List EditorIndex}
    {nk : EditorIndex} (h : x.lt nk) :
    insertKey (x :: xs) nk = x :: insertKey xs nk := by
  rw [insertKey, EditorIndex.cmp_eq_gt.mpr h]

theorem removeKey_sublist (m : List EditorIndex) (k : EditorIndex) :
    List.Sublist (removeKey m k) m := by
  induction m with
  | nil => simp [removeKey]
  | cons x xs ih =>
    rw [removeKey]
    split
    · exact List.Sublist.refl _
    · exact List.sublist_cons_self x xs
    · exact List.Sublist.cons₂ x ih

/-- Removing a present key deletes exactly its occurrence, provided every
key before it is strictly smaller. -/
theorem removeKey_decomp {pre post : List EditorIndex} {k : EditorIndex}
    (hpre : ∀ x ∈ pre, x.lt k) :
    removeKey (pre ++ k :: post) k = pre ++ post := by
  induction pre with
  | nil =>
    rw [List.nil_append, removeKey]
    simp only [EditorIndex.cmp_self, List.nil_append]
  | cons a t ih =>
    rw [List.cons_append, removeKey]
    simp only [EditorIndex.cmp_eq_gt.mpr (hpre a (List.mem_cons_self a t))]
    rw [ih fun x hx => hpre x (List.mem_cons_of_mem a hx)]
    rfl

theorem is_last_iff {m : List EditorIndex} {k : EditorIndex} :
    is_last m k = true ↔ m.getLast? = some k := by
  unfold is_last
  cases h : m.getLast? with
  | none => simp
  | some l => simp [beq_iff_eq]

theorem getLast?_decomp {m : List EditorIndex} {k : EditorIndex}
    (h : m.getLast? = some k) : m = m.dropLast ++ [k] := by
  have hne : m ≠ [] := by
    intro he
    subst he
    simp at h
  have h3 : m.getLast hne = k := by
    rw [List.getLast?_eq_getLast m hne] at h
    exact Option.some.inj h
  rw [← h3]
  exact (List.dropLast_append_getLast hne).symm

/- ------------------------------------------------------------------ -/
/- Claim C5 — insert-adjacent key computation                          -/
/- ------------------------------------------------------------------ -/

/-- `new_index` on the last key: returns `(n+1, d)`, strictly above every
stored key. -/
theorem new_index_last_spec {m : List EditorIndex} {k : EditorIndex}
    (hwf : WFKeys m) (hk : k ∈ m) (hlast : is_last m k = true) :
    new_index m k = .ok ⟨k.n + 1, k.d⟩ ∧ ∀ j ∈ m, j.lt ⟨k.n + 1, k.d⟩ := by
  obtain ⟨hp, hpos⟩ := hwf
  obtain ⟨hkn, hkd⟩ := hpos k hk
  have hknew : k.lt ⟨k.n + 1, k.d⟩ := by
    show k.n * k.d < k.d * (k.n + 1)
    rw [Nat.mul_comm k.n k.d, Nat.mul_succ]
    omega
  have hdec := getLast?_decomp (is_last_iff.mp hlast)
  have hall : ∀ j ∈ m, j.lt ⟨k.n + 1, k.d⟩ := by
    intro j hj
    rw [hdec] at hj hp
    rcases List.mem_append.mp hj with hj | hj
    · exact EditorIndex.lt_trans
        ((List.pairwise_append.mp hp).2.2 j hj k (List.mem_singleton.mpr rfl)) hknew
    · rw [List.mem_singleton.mp hj]
      exact hknew
  exact ⟨by rw [new_index, if_pos hlast], hall⟩

/-- `new_index` on a non-last key: returns the mediant of `k` and its
immediate successor, strictly between them. -/
theorem new_index_not_last_spec {m : List EditorIndex} {k : EditorIndex}
    (hwf : WFKeys m) (hk : k ∈ m) (hnotlast : is_last m k = false) :
    ∃ s pre post, m = pre ++ k :: s :: post ∧
      new_index m k = .ok (EditorIndex.mediant k s) ∧
      k.lt (EditorIndex.mediant k s) ∧ (EditorIndex.mediant k s).lt s := by
  obtain ⟨hp, hpos⟩ := hwf
  obtain ⟨pre, post, hdec, hpre, hpost⟩ := mem_decomp hp hk
  rcases post with _ | ⟨s, post2⟩
  · exfalso
    have htrue : is_last m k = true := by
      rw [hdec]
      exact is_last_iff.mpr (by rw [List.getLast?_concat])
    rw [htrue] at hnotlast
    cases hnotlast
  · have hks : k.lt s := hpost s (List.mem_cons_self _ _)
    have hseek := seek_index_down hdec (fun x hx => (ne_of_lt_key (hpre x hx))) 1
    have hval : ((k :: s :: post2).getD (min 1 (s :: post2).length) k) = s := by
      have hmin : min 1 (s :: post2).length = 1 := by
        simp only [List.length_cons]
        omega
      rw [hmin, List.getD_cons_succ, List.getD_cons_zero]
    refine ⟨s, pre, post2, hdec, ?_, EditorIndex.mediant_lt_left hks,
      EditorIndex.mediant_lt_right hks⟩
    rw [new_index, if_neg (by simp [hnotlast])]
    rw [hval] at hseek
    rw [hseek]
    rfl

/-- C5 (confirmed): for a well-formed registry containing `k`: when `k` is
the last key, `new_index` returns `(numerator+1, denominator)`, which is
strictly greater than every stored key and is again the last key once
inserted (so the operation can be repeated indefinitely); otherwise
`new_index` returns the mediant of `k` and its immediate successor `s`,
which lies strictly between `k` and `s`. -/
theorem claim_C5_new_index (m : List EditorIndex) (k : EditorIndex)
    (hwf : WFKeys m) (hk : k ∈ m) :
    (is_last m k = true →
      new_index m k = .ok ⟨k.n + 1, k.d⟩ ∧
      (∀ j ∈ m, j.lt ⟨k.n + 1, k.d⟩) ∧
      is_last (insertKey m ⟨k.n + 1, k.d⟩) ⟨k.n + 1, k.d⟩ = true) ∧
    (is_last m k = false →
      ∃ s pre post, m = pre ++ k :: s :: post ∧
        new_index m k = .ok (EditorIndex.mediant k s) ∧
        k.lt (EditorIndex.mediant k s) ∧ (EditorIndex.mediant k s).lt s) := by
  constructor
  · intro hlast
    obtain ⟨hni, hall⟩ := new_index_last_spec hwf hk hlast
    exact ⟨hni, hall,
      by rw [insertKey_append_last hall, is_last_iff, List.getLast?_concat]⟩
  · exact new_index_not_last_spec hwf hk

/-- Witness for C5 at the registry `[(1,1), (3,2), (2,1)]` with the middle
key focused: the new key is the mediant of `(3,2)` and `(2,1)`. -/
theorem claim_C5_witness :
    WFKeys [⟨1, 1⟩, ⟨3, 2⟩, ⟨2, 1⟩] ∧
    (⟨3, 2⟩ : EditorIndex) ∈ [(⟨1, 1⟩ : EditorIndex), ⟨3, 2⟩, ⟨2, 1⟩] ∧
    ((is_last [⟨1, 1⟩, ⟨3, 2⟩, ⟨2, 1⟩] ⟨3, 2⟩ = true →
      new_index [⟨1, 1⟩, ⟨3, 2⟩, ⟨2, 1⟩] ⟨3, 2⟩ = .ok ⟨3 + 1, 2⟩ ∧
      (∀ j ∈ [(⟨1, 1⟩ : EditorIndex), ⟨3, 2⟩, ⟨2, 1⟩], j.lt ⟨3 + 1, 2⟩) ∧
      is_last (insertKey [⟨1, 1⟩, ⟨3, 2⟩, ⟨2, 1⟩] ⟨3 + 1, 2⟩) ⟨3 + 1, 2⟩ = true) ∧
    (is_last [⟨1, 1⟩, ⟨3, 2⟩, ⟨2, 1⟩] ⟨3, 2⟩ = false →
      ∃ s pre post, [(⟨1, 1⟩ : EditorIndex), ⟨3, 2⟩, ⟨2, 1⟩] = pre ++ ⟨3, 2⟩ :: s :: post ∧
        new_index [⟨1, 1⟩, ⟨3, 2⟩, ⟨2, 1⟩] ⟨3, 2⟩ = .ok (EditorIndex.mediant ⟨3, 2⟩ s) ∧
        EditorIndex.lt ⟨3, 2⟩ (EditorIndex.mediant ⟨3, 2⟩ s) ∧
        EditorIndex.lt (EditorIndex.mediant ⟨3, 2⟩ s) s)) :=
  ⟨by decide, by decide, claim_C5_new_index _ _ (by decide) (by decide)⟩

/- ------------------------------------------------------------------ -/
/- Claim C6 — navigation with clamping                                 -/
/- ------------------------------------------------------------------ -/

/-- C6 (confirmed): for a well-formed registry containing `k`, with
`m = pre ++ k :: post` the sorted decomposition around `k`:
`shift_index` is the identity when `up = down`; when `up > down` it walks
`up − down` positions toward the head along `pre.reverse`, clamping at the
first entry; when `down > up` it walks `down − up` positions toward the
tail along `post`, clamping at the last entry; and it always succeeds. -/
theorem claim_C6_shift_index (m : List EditorIndex) (k : EditorIndex)
    (u d : Nat) (hwf : WFKeys m) (hk : k ∈ m) :
    ∃ pre post, m = pre ++ k :: post ∧
      (u = d → shift_index m k u d = .ok k) ∧
      (d < u → shift_index m k u d =
        .ok ((k :: pre.reverse).getD (min (u - d) pre.length) k)) ∧
      (u < d → shift_index m k u d =
        .ok ((k :: post).getD (min (d - u) post.length) k)) ∧
      ∃ r, shift_index m k u d = .ok r := by
  obtain ⟨hp, _⟩ := hwf
  obtain ⟨pre, post, hdec, hpre, hpost⟩ := mem_decomp hp hk
  have heq : u = d → shift_index m k u d = .ok k := by
    intro he
    subst he
    rw [shift_index]
    have hc : compare u u = Ordering.eq := by
      simp [Nat.compare_eq_eq]
    simp only [hc]
  have hup : d < u → shift_index m k u d =
      .ok ((k :: pre.reverse).getD (min (u - d) pre.length) k) := by
    intro hlt
    rw [shift_index]
    have hc : compare u d = Ordering.gt := Nat.compare_eq_gt.mpr hlt
    simp only [hc]
    exact seek_index_up hdec (fun x hx => (ne_of_lt_key (hpost x hx)).symm) (u - d)
  have hdown : u < d → shift_index m k u d =
      .ok ((k :: post).getD (min (d - u) post.length) k) := by
    intro hlt
    rw [shift_index]
    have hc : compare u d = Ordering.lt := Nat.compare_eq_lt.mpr hlt
    simp only [hc]
    exact seek_index_down hdec (fun x hx => ne_of_lt_key (hpre x hx)) (d - u)
  refine ⟨pre, post, hdec, heq, hup, hdown, ?_⟩
  rcases Nat.lt_trichotomy u d with h | h | h
  · exact ⟨_, hdown h⟩
  · exact ⟨_, heq h⟩
  · exact ⟨_, hup h⟩

/-- Witness for C6: navigating 5 positions up from the middle key of a
3-key registry clamps at the head key. -/
theorem claim_C6_witness :
    WFKeys [⟨1, 1⟩, ⟨3, 2⟩, ⟨2, 1⟩] ∧
    (⟨3, 2⟩ : EditorIndex) ∈ [(⟨1, 1⟩ : EditorIndex), ⟨3, 2⟩, ⟨2, 1⟩] ∧
    (∃ pre post, [(⟨1, 1⟩ : EditorIndex), ⟨3, 2⟩, ⟨2, 1⟩] = pre ++ ⟨3, 2⟩ :: post ∧
      ((5 : Nat) = 0 → shift_index [⟨1, 1⟩, ⟨3, 2⟩, ⟨2, 1⟩] ⟨3, 2⟩ 5 0 = .ok ⟨3, 2⟩) ∧
      ((0 : Nat) < 5 → shift_index [⟨1, 1⟩, ⟨3, 2⟩, ⟨2, 1⟩] ⟨3, 2⟩ 5 0 =
        .ok ((⟨3, 2⟩ :: pre.reverse).getD (min (5 - 0) pre.length) ⟨3, 2⟩)) ∧
      ((5 : Nat) < 0 → shift_index [⟨1, 1⟩, ⟨3, 2⟩, ⟨2, 1⟩] ⟨3, 2⟩ 5 0 =
        .ok ((⟨3, 2⟩ :: post).getD (min (0 - 5) post.length) ⟨3, 2⟩)) ∧
      ∃ r, shift_index [⟨1, 1⟩, ⟨3, 2⟩, ⟨2, 1⟩] ⟨3, 2⟩ 5 0 = .ok r) :=
  ⟨by decide, by decide, claim_C6_shift_index _ _ 5 0 (by decide) (by decide)⟩

/- ------------------------------------------------------------------ -/
/- Claim C7 — removing an editor                                       -/
/- ------------------------------------------------------------------ -/

/-- C7 (confirmed): for a well-formed registry whose first (minimum) key is
the head key and which contains `k`: removing the head key is a no-op
returning the head key itself; removing any other key deletes exactly that
entry and returns its immediate predecessor in sorted order. -/
theorem claim_C7_remove_editor (m : List EditorIndex) (k : EditorIndex)
    (hwf : WFKeys m) (hhead : m.head? = some HEAD_INDEX) (hk : k ∈ m) :
    (k = HEAD_INDEX → remove_editor k m = some (k, m)) ∧
    (k ≠ HEAD_INDEX →
      ∃ pre p post, m = pre ++ p :: k :: post ∧
        remove_editor k m = some (p, pre ++ p :: post)) := by
  obtain ⟨hp, _⟩ := hwf
  constructor
  · intro he
    rw [remove_editor, if_pos (by simp [he])]
  · intro hne
    obtain ⟨pre0, post, hdec, hpre0, hpost⟩ := mem_decomp hp hk
    have hpre0ne : pre0 ≠ [] := by
      intro he0
      subst he0
      rw [List.nil_append] at hdec
      rw [hdec] at hhead
      simp only [List.head?_cons, Option.some.injEq] at hhead
      exact hne hhead
    obtain ⟨p, pre, hpre0dec⟩ : ∃ p pre, pre0 = pre ++ [p] :=
      ⟨pre0.getLast hpre0ne, pre0.dropLast,
        (List.dropLast_append_getLast hpre0ne).symm⟩
    have hdec2 : m = pre ++ p :: k :: post := by
      rw [hdec, hpre0dec]
      simp
    refine ⟨pre, p, post, hdec2, ?_⟩
    rw [remove_editor, if_neg (by simp [hne])]
    have hseek := seek_index_up hdec (fun x hx => (ne_of_lt_key (hpost x hx)).symm) 1
    have hval : (k :: pre0.reverse).getD (min 1 pre0.length) k = p := by
      rw [hpre0dec]
      have hmin : min 1 (pre ++ [p]).length = 1 := by
        simp only [List.length_append, List.length_singleton]
        omega
      have hrev : (pre ++ [p]).reverse = p :: pre.reverse := by
        simp
      rw [hmin, hrev, List.getD_cons_succ, List.getD_cons_zero]
    rw [hval] at hseek
    rw [hseek]
    have hrem : removeKey m k = pre ++ p :: post := by
      rw [hdec, removeKey_decomp hpre0, hpre0dec]
      simp
    rw [hrem]

/-- Witness for C7: removing the last key of a 3-key registry focuses its
predecessor and deletes exactly that entry. -/
theorem claim_C7_witness :
    WFKeys [⟨1, 1⟩, ⟨3, 2⟩, ⟨2, 1⟩] ∧
    ([(⟨1, 1⟩ : EditorIndex), ⟨3, 2⟩, ⟨2, 1⟩].head? = some HEAD_INDEX) ∧
    (⟨2, 1⟩ : EditorIndex) ∈ [(⟨1, 1⟩ : EditorIndex), ⟨3, 2⟩, ⟨2, 1⟩] ∧
    (((⟨2, 1⟩ : EditorIndex) = HEAD_INDEX →
      remove_editor ⟨2, 1⟩ [⟨1, 1⟩, ⟨3, 2⟩, ⟨2, 1⟩] =
        some (⟨2, 1⟩, [⟨1, 1⟩, ⟨3, 2⟩, ⟨2, 1⟩])) ∧
    ((⟨2, 1⟩ : EditorIndex) ≠ HEAD_INDEX →
      ∃ pre p post, [(⟨1, 1⟩ : EditorIndex), ⟨3, 2⟩, ⟨2, 1⟩] = pre ++ p :: ⟨2, 1⟩ :: post ∧
        remove_editor ⟨2, 1⟩ [⟨1, 1⟩, ⟨3, 2⟩, ⟨2, 1⟩] = some (p, pre ++ p :: post))) :=
  ⟨by decide, by decide, by decide,
    claim_C7_remove_editor _ _ (by decide) (by decide) (by decide)⟩

/- ------------------------------------------------------------------ -/
/- Claim C10 — reachable registry states                               -/
/- ------------------------------------------------------------------ -/

/-- Registry states reachable from the initial single-head state by the
three structural operations of `prompt.rs`.  The `k ∈ m` side conditions
mirror the program invariant that insertion and removal are always invoked
at the focused key `cur_index`, which is a stored key (the surrounding code
dereferences it with `get(..).unwrap()`). -/
inductive ReachRegistry : List EditorIndex → Prop where
  | init : ReachRegistry [HEAD_INDEX]
  | insert {m : List EditorIndex} {k nk : EditorIndex} {m' : List EditorIndex} :
      ReachRegistry m → k ∈ m → insert_editor k m = some (nk, m') →
      ReachRegistry m'
  | remove {m : List EditorIndex} {k p : EditorIndex} {m' : List EditorIndex} :
      ReachRegistry m → k ∈ m → remove_editor k m = some (p, m') →
      ReachRegistry m'
  | pop {m : List EditorIndex} {t : Nat} {popped m' : List EditorIndex} :
      ReachRegistry m → pop_editors m t = some (popped, m') →
      ReachRegistry m'

theorem head?_append_left {m l : List EditorIndex} (h : m ≠ []) :
    (m ++ l).head? = m.head? := by
  cases m with
  | nil => exact absurd rfl h
  | cons x xs => rfl

theorem insert_preserves {m : List EditorIndex} {k nk : EditorIndex}
    {m' : List EditorIndex} (hwf : WFKeys m)
    (hhead : m.head? = some HEAD_INDEX) (hk : k ∈ m)
    (hins : insert_editor k m = some (nk, m')) :
    WFKeys m' ∧ m'.head? = some HEAD_INDEX := by
  rw [insert_editor] at hins
  obtain ⟨hp, hpos⟩ := hwf
  cases hni : new_index m k with
  | error e =>
    rw [hni] at hins
    cases hins
  | ok nk0 =>
    rw [hni] at hins
    have hm' : insertKey m nk0 = m' :=
      congrArg Prod.snd (Option.some.inj hins)
    rw [← hm']
    -- facts about the freshly produced key
    have hfresh : k.lt nk0 ∧ 1 ≤ nk0.n ∧ 1 ≤ nk0.d := by
      cases hl : is_last m k with
      | true =>
        obtain ⟨hni2, hall⟩ := new_index_last_spec ⟨hp, hpos⟩ hk hl
        rw [hni2] at hni
        have hv : (⟨k.n + 1, k.d⟩ : EditorIndex) = nk0 := Except.ok.inj hni
        rw [← hv]
        exact ⟨hall k hk, by
          obtain ⟨h1, h2⟩ := hpos k hk
          exact ⟨by simp, by simp [h2]⟩⟩
      | false =>
        obtain ⟨s, pre, post, hdec, hni2, hlts, hstl⟩ :=
          new_index_not_last_spec ⟨hp, hpos⟩ hk hl
        rw [hni2] at hni
        have hv : EditorIndex.mediant k s = nk0 := Except.ok.inj hni
        rw [← hv]
        have hsmem : s ∈ m := by
          rw [hdec]
          exact List.mem_append_right pre
            (List.mem_cons_of_mem k (List.mem_cons_self s post))
        obtain ⟨hk1, hk2⟩ := hpos k hk
        obtain ⟨hs1, hs2⟩ := hpos s hsmem
        exact ⟨hlts, by
          constructor <;> simp [EditorIndex.mediant] <;> omega⟩
    obtain ⟨hklt, hn1, hd1⟩ := hfresh
    -- the head key stays strictly below the new key
    have hheadlt : HEAD_INDEX.lt nk0 := by
      cases m with
      | nil => cases hk
      | cons a t =>
        obtain rfl : a = HEAD_INDEX := by
          simpa using hhead
        rcases List.mem_cons.mp hk with rfl | hkt
        · exact hklt
        · exact EditorIndex.lt_trans
            ((List.pairwise_cons.mp hp).1 k hkt) hklt
    refine ⟨⟨insertKey_pairwise hp, ?_⟩, ?_⟩
    · intro j hj
      rcases insertKey_mem hj with hjm | rfl
      · exact hpos j hjm
      · exact ⟨hn1, hd1⟩
    · cases m with
      | nil => cases hk
      | cons a t =>
        obtain rfl : a = HEAD_INDEX := by
          simpa using hhead
        rw [insertKey_cons_gt hheadlt]
        rfl

theorem remove_preserves {m : List EditorIndex} {k p : EditorIndex}
    {m' : List EditorIndex} (hwf : WFKeys m)
    (hhead : m.head? = some HEAD_INDEX) (hk : k ∈ m)
    (hrem : remove_editor k m = some (p, m')) :
    WFKeys m' ∧ m'.head? = some HEAD_INDEX := by
  rw [remove_editor] at hrem
  obtain ⟨hp2, hpos⟩ := hwf
  by_cases he : k = HEAD_INDEX
  · rw [if_pos (by simp [he])] at hrem
    obtain ⟨rfl, rfl⟩ : k = p ∧ m = m' := by
      cases hrem
      exact ⟨rfl, rfl⟩
    exact ⟨⟨hp2, hpos⟩, hhead⟩
  · rw [if_neg (by simp [he])] at hrem
    cases hs : seek_index m k (.up 1) with
    | error e =>
      rw [hs] at hrem
      cases hrem
    | ok prev =>
      rw [hs] at hrem
      obtain ⟨rfl, rfl⟩ : prev = p ∧ m' = removeKey m k := by
        cases hrem
        exact ⟨rfl, rfl⟩
      have hsub := removeKey_sublist m k
      refine ⟨⟨hp2.sublist hsub, fun j hj => hpos j (hsub.subset hj)⟩, ?_⟩
      cases m with
      | nil => cases hk
      | cons a t =>
        obtain rfl : a = HEAD_INDEX := by
          simpa using hhead
        have hkt : k ∈ t := by
          rcases List.mem_cons.mp hk with rfl | hkt
          · exact absurd rfl he
          · exact hkt
        have : HEAD_INDEX.lt k := (List.pairwise_cons.mp hp2).1 k hkt
        rw [removeKey, EditorIndex.cmp_eq_gt.mpr this]
        rfl

theorem pop_preserves {t : Nat} :
    ∀ {m popped m' : List EditorIndex}, WFKeys m →
    m.head? = some HEAD_INDEX → pop_editors m t = some (popped, m') →
    WFKeys m' ∧ m'.head? = some HEAD_INDEX := by
  induction t with
  | zero =>
    intro m popped m' hwf hhead hpop
    rw [pop_editors] at hpop
    obtain ⟨rfl, rfl⟩ : [] = popped ∧ m = m' := by
      cases hpop
      exact ⟨rfl, rfl⟩
    exact ⟨hwf, hhead⟩
  | succ t ih =>
    intro m popped m' hwf hhead hpop
    rw [pop_editors] at hpop
    cases m with
    | nil => cases hhead
    | cons a tail =>
      obtain rfl : a = HEAD_INDEX := by
        simpa using hhead
      split at hpop
      · rename_i l hlast
        split at hpop
        · have hm : HEAD_INDEX :: tail = m' :=
            congrArg Prod.snd (Option.some.inj hpop)
          rw [← hm]
          exact ⟨hwf, rfl⟩
        · rename_i hlh
          -- the tail cannot be empty, otherwise the last key is the head
          cases tail with
          | nil =>
            have hl : l = HEAD_INDEX := by
              simpa using hlast.symm
            exact absurd (by simp [hl]) hlh
          | cons b tail2 =>
            have hdl : (HEAD_INDEX :: b :: tail2).dropLast =
                HEAD_INDEX :: (b :: tail2).dropLast := rfl
            cases hrec : pop_editors ((HEAD_INDEX :: b :: tail2).dropLast) t with
            | none =>
              rw [hrec] at hpop
              cases hpop
            | some r =>
              rw [hrec] at hpop
              have hm : r.2 = m' := congrArg Prod.snd (Option.some.inj hpop)
              rw [← hm]
              have hdlwf : WFKeys ((HEAD_INDEX :: b :: tail2).dropLast) := by
                obtain ⟨hp2, hpos⟩ := hwf
                have hsub : List.Sublist ((HEAD_INDEX :: b :: tail2).dropLast)
                    (HEAD_INDEX :: b :: tail2) := List.dropLast_sublist _
                exact ⟨hp2.sublist hsub, fun j hj => hpos j (hsub.subset hj)⟩
              have hdlhead : ((HEAD_INDEX :: b :: tail2).dropLast).head? =
                  some HEAD_INDEX := by
                rw [hdl]
                rfl
              exact ih hdlwf hdlhead hrec
      · cases hpop

/-- Every reachable registry is well formed with the head key first. -/
theorem reach_registry_inv {m : List EditorIndex} (h : ReachRegistry m) :
    WFKeys m ∧ m.head? = some HEAD_INDEX := by
  induction h with
  | init => exact ⟨⟨by decide, by decide⟩, rfl⟩
  | insert _ hk hins ih => exact insert_preserves ih.1 ih.2 hk hins
  | remove _ hk hrem ih => exact remove_preserves ih.1 ih.2 hk hrem
  | pop _ hpop ih => exact pop_preserves ih.1 ih.2 hpop

/-- C10 (confirmed): in every registry state reachable from the initial
state `[(1,1)]` by `new_index`-insertion, `remove_editor` and
`pop_editors`, every stored key has positive numerator and denominator,
the head key `(1,1)` is present and is the minimum under the
cross-multiplication order, and no two distinct stored keys compare as
equal under that order. -/
theorem claim_C10_registry_invariant (m : List EditorIndex)
    (h : ReachRegistry m) :
    (∀ j ∈ m, 1 ≤ j.n ∧ 1 ≤ j.d) ∧
    HEAD_INDEX ∈ m ∧
    (∀ j ∈ m, j = HEAD_INDEX ∨ HEAD_INDEX.lt j) ∧
    List.Pairwise (fun a b => a.cmp b ≠ Ordering.eq) m := by
  obtain ⟨⟨hp, hpos⟩, hhead⟩ := reach_registry_inv h
  cases m with
  | nil => cases hhead
  | cons a t =>
    obtain rfl : a = HEAD_INDEX := by
      simpa using hhead
    refine ⟨hpos, List.mem_cons_self _ _, ?_, ?_⟩
    · intro j hj
      rcases List.mem_cons.mp hj with rfl | hjt
      · exact Or.inl rfl
      · exact Or.inr ((List.pairwise_cons.mp hp).1 j hjt)
    · exact hp.imp fun hab => by
        rw [EditorIndex.cmp_eq_lt.mpr hab]
        simp

/-- Witness for C10 at the two-key state reached by one tail insertion. -/
theorem claim_C10_witness :
    (∀ j ∈ [(⟨1, 1⟩ : EditorIndex), ⟨2, 1⟩], 1 ≤ j.n ∧ 1 ≤ j.d) ∧
    HEAD_INDEX ∈ [(⟨1, 1⟩ : EditorIndex), ⟨2, 1⟩] ∧
    (∀ j ∈ [(⟨1, 1⟩ : EditorIndex), ⟨2, 1⟩],
      j = HEAD_INDEX ∨ HEAD_INDEX.lt j) ∧
    List.Pairwise (fun a b => a.cmp b ≠ Ordering.eq)
      [(⟨1, 1⟩ : EditorIndex), ⟨2, 1⟩] :=
  claim_C10_registry_invariant _
    (@ReachRegistry.insert [HEAD_INDEX] HEAD_INDEX ⟨2, 1⟩ [⟨1, 1⟩, ⟨2, 1⟩]
      ReachRegistry.init (by decide) (by decide))

/- ------------------------------------------------------------------ -/
/- Pipeline spawning lemmas                                            -/
/- ------------------------------------------------------------------ -/

theorem except_bind_ok {α β : Type} (a : α) (f : α → Except SpawnError β) :
    (Except.ok a >>= f) = f a := rfl

theorem except_bind_err {α β : Type} (e : SpawnError)
    (f : α → Except SpawnError β) :
    ((Except.error e : Except SpawnError α) >>= f) = .error e := rfl

theorem except_map_ok {α β : Type} (f : α → β) (a : α) :
    (Except.ok a : Except SpawnError α).map f = .ok (f a) := rfl

theorem except_map_err {α β : Type} (f : α → β) (e : SpawnError) :
    (Except.error e : Except SpawnError α).map f = .error e := rfl

/-- Both tokenization and process startup succeed for `cmd`. -/
def goodCmd (env : PipelineEnv) (cmd : Str) : Prop :=
  match env.shlexSplit (strTrim cmd) with
  | some parts => parts ≠ [] ∧ env.spawnOk (parts.headD []) = true
  | none => False

instance (env : PipelineEnv) (cmd : Str) : Decidable (goodCmd env cmd) := by
  unfold goodCmd
  split <;> infer_instance

theorem stage_spawn_ok_of_good {env : PipelineEnv} {cmd : Str}
    (h : goodCmd env cmd) : ∃ t, stage_spawn env cmd = .ok t := by
  unfold goodCmd at h
  split at h
  · rename_i parts hs
    refine ⟨parts, ?_⟩
    unfold stage_spawn parse_command
    simp only [hs]
    rw [if_neg (by simp [h.1]), except_bind_ok, if_pos h.2]
  · exact h.elim

theorem stage_spawn_err_of_none {env : PipelineEnv} {cmd : Str}
    (h : env.shlexSplit (strTrim cmd) = none) :
    stage_spawn env cmd = .error (.invalidShell cmd) := by
  unfold stage_spawn parse_command
  simp only [h]
  rfl

theorem stage_spawn_err_of_empty {env : PipelineEnv} {cmd : Str}
    (h : env.shlexSplit (strTrim cmd) = some []) :
    stage_spawn env cmd = .error .emptyCommand := by
  unfold stage_spawn parse_command
  simp only [h]
  rfl

theorem mapM_ok_of_all {env : PipelineEnv} :
    ∀ {l : List Str}, (∀ c ∈ l, ∃ t, stage_spawn env c = .ok t) →
    ∃ ts, l.mapM (stage_spawn env) = .ok ts ∧ ts.length = l.length := by
  intro l
  induction l with
  | nil => exact fun _ => ⟨[], rfl, rfl⟩
  | cons c l ih =>
    intro h
    obtain ⟨t, ht⟩ := h c (List.mem_cons_self c l)
    obtain ⟨ts, hts, hlen⟩ := ih fun x hx => h x (List.mem_cons_of_mem c hx)
    refine ⟨t :: ts, ?_, by simp [hlen]⟩
    rw [List.mapM_cons, ht, except_bind_ok, hts, except_bind_ok]
    rfl

theorem mapM_ok_mem {env : PipelineEnv} :
    ∀ {l : List Str} {ts : List (List Str)},
    l.mapM (stage_spawn env) = .ok ts →
    ∀ c ∈ l, ∃ t, stage_spawn env c = .ok t := by
  intro l
  induction l with
  | nil =>
    intro ts _ c hc
    cases hc
  | cons x l ih =>
    intro ts hmap c hc
    rw [List.mapM_cons] at hmap
    cases hx : stage_spawn env x with
    | error e =>
      rw [hx, except_bind_err] at hmap
      cases hmap
    | ok t =>
      rw [hx, except_bind_ok] at hmap
      cases hmap2 : l.mapM (stage_spawn env) with
      | error e =>
        rw [hmap2, except_bind_err] at hmap
        cases hmap
      | ok ts2 =>
        rcases List.mem_cons.mp hc with rfl | hc2
        · exact ⟨t, hx⟩
        · exact ih hmap2 c hc2

theorem mapM_error_first {env : PipelineEnv} {e : SpawnError} {c : Str} :
    ∀ (pre post : List Str),
    (∀ x ∈ pre, ∃ t, stage_spawn env x = .ok t) →
    stage_spawn env c = .error e →
    (pre ++ c :: post).mapM (stage_spawn env) = .error e := by
  intro pre
  induction pre with
  | nil =>
    intro post _ hc
    rw [List.nil_append, List.mapM_cons, hc, except_bind_err]
  | cons x l ih =>
    intro post h hc
    obtain ⟨t, ht⟩ := h x (List.mem_cons_self x l)
    rw [List.cons_append, List.mapM_cons, ht, except_bind_ok,
      ih post (fun y hy => h y (List.mem_cons_of_mem x hy)) hc,
      except_bind_err]

/-- `mapM` over a non-empty list, split as the loop of `Pipeline::spawn`
splits it: all but the last element, then the last element. -/
theorem mapM_dropLast_getLast {env : PipelineEnv} :
    ∀ (l : List Str), l ≠ [] →
    l.mapM (stage_spawn env) = (do
      let mid ← (l.dropLast).mapM (stage_spawn env)
      let lastStage ← stage_spawn env (l.getLastD [])
      pure (mid ++ [lastStage]) : Except SpawnError (List (List Str))) := by
  intro l
  induction l with
  | nil => exact fun h => absurd rfl h
  | cons x l ih =>
    intro _
    cases l with
    | nil =>
      rw [show [x].dropLast = ([] : List Str) from rfl,
        show [x].getLastD [] = x from rfl, List.mapM_cons]
      cases hx : stage_spawn env x <;> rfl
    | cons y l2 =>
      rw [List.mapM_cons, ih (by simp)]
      have hdl : (x :: y :: l2).dropLast = x :: (y :: l2).dropLast := rfl
      have hgl : (x :: y :: l2).getLastD [] = (y :: l2).getLastD [] := rfl
      rw [hdl, hgl, List.mapM_cons]
      cases hx : stage_spawn env x with
      | error e => rfl
      | ok t =>
        cases hA : ((y :: l2).dropLast).mapM (stage_spawn env) with
        | error e => rfl
        | ok mid =>
          cases hB : stage_spawn env ((y :: l2).getLastD []) with
          | error e => rfl
          | ok lst => rfl

/-- `Pipeline::spawn` on a non-empty command list is the left-to-right
sequencing of the individual stage spawns, assembled into a head stage and
the pipe stages. -/
theorem spawn_eq_mapM {env : PipelineEnv} :
    ∀ (cmds : List Str), cmds ≠ [] →
    Pipeline.spawn env cmds =
      (cmds.mapM (stage_spawn env)).map
        (fun ts => ⟨some (ts.headD []), ts.tail⟩) := by
  intro cmds hne
  match cmds with
  | [c] =>
    rw [List.mapM_cons]
    show (do
        let head ← stage_spawn env c
        .ok ⟨some head, []⟩ : Except SpawnError Pipeline) = _
    cases hc : stage_spawn env c with
    | error e => rfl
    | ok t => rfl
  | c :: r :: rest =>
    rw [List.mapM_cons, mapM_dropLast_getLast (r :: rest) (by simp)]
    show (do
        let head ← stage_spawn env c
        let mid ← ((r :: rest).dropLast).mapM (stage_spawn env)
        let lastStage ← stage_spawn env ((r :: rest).getLastD [])
        .ok ⟨some head, mid ++ [lastStage]⟩ : Except SpawnError Pipeline) = _
    cases hc : stage_spawn env c with
    | error e => rfl
    | ok t =>
      cases hA : ((r :: rest).dropLast).mapM (stage_spawn env) with
      | error e => rfl
      | ok mid =>
        cases hB : stage_spawn env ((r :: rest).getLastD []) with
        | error e => rfl
        | ok lst => rfl

/- ------------------------------------------------------------------ -/
/- Claim C8 — pipeline spawn errors and success                        -/
/- ------------------------------------------------------------------ -/

/-- C8 (confirmed): `Pipeline::spawn` fails with the empty-pipeline error
on an empty command list; when the first failing command (all commands
before it parse and spawn) cannot be tokenized it returns the
shell-syntax parse error for that command, and when it tokenizes to an
empty word list it returns the empty-command parse error; it fails
whenever any command is untokenizable or empty; and when every command
tokenizes and spawns it returns a pipeline with exactly one stage per
command. -/
theorem claim_C8_pipeline_spawn :
    (∀ env : PipelineEnv, Pipeline.spawn env [] = .error .emptyPipeline) ∧
    (∀ (env : PipelineEnv) (pre : List Str) (c : Str) (post : List Str),
      (∀ x ∈ pre, ∃ t, stage_spawn env x = .ok t) →
      env.shlexSplit (strTrim c) = none →
      Pipeline.spawn env (pre ++ c :: post) = .error (.invalidShell c)) ∧
    (∀ (env : PipelineEnv) (pre : List Str) (c : Str) (post : List Str),
      (∀ x ∈ pre, ∃ t, stage_spawn env x = .ok t) →
      env.shlexSplit (strTrim c) = some [] →
      Pipeline.spawn env (pre ++ c :: post) = .error .emptyCommand) ∧
    (∀ (env : PipelineEnv) (cmds : List Str) (c : Str), c ∈ cmds →
      (env.shlexSplit (strTrim c) = none ∨
        env.shlexSplit (strTrim c) = some []) →
      ∃ e, Pipeline.spawn env cmds = .error e) ∧
    (∀ (env : PipelineEnv) (cmds : List Str), cmds ≠ [] →
      (∀ c ∈ cmds, goodCmd env c) →
      ∃ p, Pipeline.spawn env cmds = .ok p ∧ p.numStages = cmds.length) := by
  refine ⟨fun env => rfl, ?_, ?_, ?_, ?_⟩
  · intro env pre c post hpre hc
    rw [spawn_eq_mapM (pre ++ c :: post) (by simp),
      mapM_error_first pre post hpre (stage_spawn_err_of_none hc),
      except_map_err]
  · intro env pre c post hpre hc
    rw [spawn_eq_mapM (pre ++ c :: post) (by simp),
      mapM_error_first pre post hpre (stage_spawn_err_of_empty hc),
      except_map_err]
  · intro env cmds c hc hbad
    have hne : cmds ≠ [] := by
      intro he
      rw [he] at hc
      cases hc
    rw [spawn_eq_mapM cmds hne]
    cases hM : cmds.mapM (stage_spawn env) with
    | error e => exact ⟨e, by rw [except_map_err]⟩
    | ok ts =>
      exfalso
      obtain ⟨t, ht⟩ := mapM_ok_mem hM c hc
      rcases hbad with hb | hb
      · rw [stage_spawn_err_of_none hb] at ht
        cases ht
      · rw [stage_spawn_err_of_empty hb] at ht
        cases ht
  · intro env cmds hne hgood
    obtain ⟨ts, hts, hlen⟩ :=
      mapM_ok_of_all fun c hc => stage_spawn_ok_of_good (hgood c hc)
    refine ⟨⟨some (ts.headD []), ts.tail⟩, ?_, ?_⟩
    · rw [spawn_eq_mapM cmds hne, hts, except_map_ok]
    · have hts_ne : ts ≠ [] := by
        intro he
        rw [he] at hlen
        exact hne (List.length_eq_zero.mp hlen.symm)
      rw [Pipeline.numStages]
      simp only [Option.isSome_some, if_pos]
      rw [List.length_tail, hlen]
      have : 1 ≤ cmds.length := by
        cases cmds with
        | nil => exact absurd rfl hne
        | cons a t => simp
      omega

/-- A sample environment for the witnesses: the tokenizer splits a blank
command into no words and any other command into a single word; every
program spawns. -/
def sampleEnv : PipelineEnv :=
  ⟨fun s => if s.isEmpty then some [] else some [s], fun _ => true⟩

/-- Witness for C8: a single good command spawns a one-stage pipeline. -/
theorem claim_C8_witness :
    (([['l', 's']] : List Str) ≠ [] ∧
      ∀ c ∈ ([['l', 's']] : List Str), goodCmd sampleEnv c) ∧
    ∃ p, Pipeline.spawn sampleEnv [['l', 's']] = .ok p ∧
      p.numStages = ([['l', 's']] : List Str).length :=
  ⟨⟨by decide, by decide⟩,
    claim_C8_pipeline_spawn.2.2.2.2 sampleEnv [['l', 's']]
      (by decide) (by decide)⟩

/- ------------------------------------------------------------------ -/
/- Claim C3 — commands at submission vs. non-ignored entries           -/
/- ------------------------------------------------------------------ -/

/-- C3 counterexample: a registry with a single non-ignored entry whose
text is empty yields an empty command list, so the submitted command list
does not contain one command per non-ignored entry (1 ≠ 0): blank texts
are also filtered out. -/
theorem claim_C3_counterexample :
    get_all_texts [⟨[], false⟩] = [] ∧
    ([(⟨[], false⟩ : Editor)].filter (fun e => !e.ignore)).length = 1 ∧
    ¬ (get_all_texts [⟨[], false⟩]).length =
        ([(⟨[], false⟩ : Editor)].filter (fun e => !e.ignore)).length := by
  refine ⟨rfl, rfl, ?_⟩
  intro h
  cases h

/-- The submitted command list is exactly the texts of the entries that
are neither ignored nor blank. -/
theorem get_all_texts_eq_filter (editors : List Editor) :
    get_all_texts editors =
      (editors.filter
        (fun e => !e.ignore && !(strTrim e.text).isEmpty)).map
        (fun e => e.text) := by
  unfold get_all_texts
  induction editors with
  | nil => rfl
  | cons e l ih =>
    cases hig : e.ignore <;> cases hbl : (strTrim e.text).isEmpty <;>
      simp [List.filter_cons, hig, hbl, ih]

/-- C3 (corrected): the command list produced at submission contains
exactly one command per entry whose ignore flag is false AND whose text is
not blank (whitespace-only), in key order; consequently a successfully
submitted pipeline has one stage per such entry. -/
theorem claim_C3_amended (editors : List Editor) (env : PipelineEnv)
    (hne : get_all_texts editors ≠ [])
    (hgood : ∀ c ∈ get_all_texts editors, goodCmd env c) :
    get_all_texts editors =
      (editors.filter
        (fun e => !e.ignore && !(strTrim e.text).isEmpty)).map
        (fun e => e.text) ∧
    ∃ p, Pipeline.spawn env (get_all_texts editors) = .ok p ∧
      p.numStages =
        (editors.filter
          (fun e => !e.ignore && !(strTrim e.text).isEmpty)).length := by
  have hfil := get_all_texts_eq_filter editors
  obtain ⟨ts, hts, hlen⟩ :=
    mapM_ok_of_all fun c hc => stage_spawn_ok_of_good (hgood c hc)
  refine ⟨hfil, ⟨some (ts.headD []), ts.tail⟩, ?_, ?_⟩
  · rw [spawn_eq_mapM _ hne, hts, except_map_ok]
  · have hts_ne : ts ≠ [] := by
      intro he
      rw [he] at hlen
      exact hne (List.length_eq_zero.mp hlen.symm)
    rw [Pipeline.numStages]
    simp only [Option.isSome_some, if_pos]
    rw [List.length_tail, hlen, hfil, List.length_map]
    have : 1 ≤ (get_all_texts editors).length := by
      cases hg : get_all_texts editors with
      | nil => exact absurd hg hne
      | cons a t => simp
    rw [hfil, List.length_map] at this
    omega

/-- Witness for C3 at a registry with one good entry, one blank entry and
one ignored entry: exactly one command is submitted. -/
theorem claim_C3_witness :
    (get_all_texts [⟨['l', 's'], false⟩, ⟨[' '], false⟩, ⟨['x'], true⟩] ≠ [] ∧
      ∀ c ∈ get_all_texts [⟨['l', 's'], false⟩, ⟨[' '], false⟩, ⟨['x'], true⟩],
        goodCmd sampleEnv c) ∧
    (get_all_texts [⟨['l', 's'], false⟩, ⟨[' '], false⟩, ⟨['x'], true⟩] =
      ([(⟨['l', 's'], false⟩ : Editor), ⟨[' '], false⟩, ⟨['x'], true⟩].filter
        (fun e => !e.ignore && !(strTrim e.text).isEmpty)).map
        (fun e => e.text) ∧
    ∃ p, Pipeline.spawn sampleEnv
        (get_all_texts [⟨['l', 's'], false⟩, ⟨[' '], false⟩, ⟨['x'], true⟩]) =
        .ok p ∧
      p.numStages =
        ([(⟨['l', 's'], false⟩ : Editor), ⟨[' '], false⟩, ⟨['x'], true⟩].filter
          (fun e => !e.ignore && !(strTrim e.text).isEmpty)).length) :=
  ⟨⟨by decide, by decide⟩,
    claim_C3_amended [⟨['l', 's'], false⟩, ⟨[' '], false⟩, ⟨['x'], true⟩]
      sampleEnv (by decide) (by decide)⟩

/- ------------------------------------------------------------------ -/
/- `src/operator.rs` — event aggregation                               -/
/- ------------------------------------------------------------------ -/

/-- The `crossterm` key codes distinguished by `operator.rs`. -/
inductive KeyCode where
  | char (c : Char)
  | up
  | down
  | left
  | right
  | enter
  | esc
  | backspace
deriving DecidableEq

inductive KeyEventKind where
  | press
  | rep
  | release
deriving DecidableEq

/-- A `crossterm` key event.  `modifiers` and `state` are bitmasks with
`NONE = 0`, `SHIFT = 1`, `CONTROL = 2`, `ALT = 4`. -/
structure KeyEvent where
  code : KeyCode
  modifiers : Nat
  kind : KeyEventKind
  state : Nat
deriving DecidableEq

inductive MouseEventKind where
  | scrollUp
  | scrollDown
  | scrollLeft
  | scrollRight
  | moved
deriving DecidableEq

structure MouseEvent where
  kind : MouseEventKind
  column : Nat
  row : Nat
  modifiers : Nat
deriving DecidableEq

/-- A `crossterm::event::Event`. -/
inductive Event where
  | key (k : KeyEvent)
  | mouse (m : MouseEvent)
  | resize (width height : Nat)
  | focusGained
  | focusLost
  | paste (s : List Char)
deriving DecidableEq

/-- `EventOperator::extract_char` (`operator.rs` lines 322–338): a plain
character key press with `NONE` or `SHIFT` modifiers and empty state. -/
def extract_char : Event → Option Char
  | .key ⟨.char c, 0, .press, 0⟩ => some c
  | .key ⟨.char c, 1, .press, 0⟩ => some c
  | _ => none

/-- `detect_vertical_direction` (lines 340–351): any Up/Down key event. -/
def detect_vertical_direction : Event → Option (Nat × Nat)
  | .key k =>
    match k.code with
    | .up => some (1, 0)
    | .down => some (0, 1)
    | _ => none
  | _ => none

/-- `detect_vertical_scroll` (lines 353–365): mouse wheel up/down. -/
def detect_vertical_scroll : Event → Option (Nat × Nat)
  | .mouse m =>
    match m.kind with
    | .scrollUp => some (1, 0)
    | .scrollDown => some (0, 1)
    | _ => none
  | _ => none

/-- `detect_horizontal_direction` (lines 367–379): Left/Right keys. -/
def detect_horizontal_direction : Event → Option (Nat × Nat)
  | .key k =>
    match k.code with
    | .left => some (1, 0)
    | .right => some (0, 1)
    | _ => none
  | _ => none

/-- `detect_horizontal_scroll` (lines 381–393): mouse wheel left/right. -/
def detect_horizontal_scroll : Event → Option (Nat × Nat)
  | .mouse m =>
    match m.kind with
    | .scrollLeft => some (1, 0)
    | .scrollRight => some (0, 1)
    | _ => none
  | _ => none

/-- `Buffer` (`operator.rs` lines 11–19). -/
inductive Buffer where
  | key (chars : List Char)
  | verticalCursor (u d : Nat)
  | verticalScroll (u d : Nat)
  | horizontalCursor (l r : Nat)
  | horizontalScroll (l r : Nat)
  | other (e : Event) (count : Nat)
deriving DecidableEq

/-- `Debounce` (lines 38–41). -/
inductive Debounce where
  | resize (width height : Nat)
deriving DecidableEq

/-- `EventStream` (lines 51–55). -/
inductive EventStream where
  | buffer (b : Buffer)
  | debounce (d : Debounce)
deriving DecidableEq

/-- The mutable locals of `EventOperator::operate` (lines 96–104). -/
structure OperatorState where
  result : List EventStream
  chars : List Char
  vertical : Nat × Nat
  horizontal : Nat × Nat
  verticalScroll : Nat × Nat
  horizontalScroll : Nat × Nat
  others : Option (Event × Nat)
  lastResize : Option (Nat × Nat)
  resizeIndex : Option Nat
deriving DecidableEq

def initOperatorState : OperatorState :=
  ⟨[], [], (0, 0), (0, 0), (0, 0), (0, 0), none, none, none⟩

/-- `flush_char_buffer` (lines 246–251). -/
def flush_char_buffer (s : OperatorState) : OperatorState :=
  if s.chars.isEmpty then s
  else { s with result := s.result ++ [.buffer (.key s.chars)], chars := [] }

/-- `flush_vertical_buffer` (lines 253–260). -/
def flush_vertical_buffer (s : OperatorState) : OperatorState :=
  if s.vertical = (0, 0) then s
  else { s with
    result := s.result ++ [.buffer (.verticalCursor s.vertical.1 s.vertical.2)],
    vertical := (0, 0) }

/-- `flush_horizontal_buffer` (lines 262–270). -/
def flush_horizontal_buffer (s : OperatorState) : OperatorState :=
  if s.horizontal = (0, 0) then s
  else { s with
    result := s.result ++
      [.buffer (.horizontalCursor s.horizontal.1 s.horizontal.2)],
    horizontal := (0, 0) }

/-- `flush_vertical_scroll_buffer` (lines 272–283). -/
def flush_vertical_scroll_buffer (s : OperatorState) : OperatorState :=
  if s.verticalScroll = (0, 0) then s
  else { s with
    result := s.result ++
      [.buffer (.verticalScroll s.verticalScroll.1 s.verticalScroll.2)],
    verticalScroll := (0, 0) }

/-- `flush_horizontal_scroll_buffer` (lines 285–296). -/
def flush_horizontal_scroll_buffer (s : OperatorState) : OperatorState :=
  if s.horizontalScroll = (0, 0) then s
  else { s with
    result := s.result ++
      [.buffer (.horizontalScroll s.horizontalScroll.1 s.horizontalScroll.2)],
    horizontalScroll := (0, 0) }

/-- `flush_others_buffer` (lines 298–305). -/
def flush_others_buffer (s : OperatorState) : OperatorState :=
  match s.others with
  | some (e, c) =>
    { s with result := s.result ++ [.buffer (.other e c)], others := none }
  | none => s

/-- `flush_all_buffers` (lines 229–244): char, vertical, horizontal,
vertical scroll, horizontal scroll, others — in that order. -/
def flush_all_buffers (s : OperatorState) : OperatorState :=
  flush_others_buffer (flush_horizontal_scroll_buffer
    (flush_vertical_scroll_buffer (flush_horizontal_buffer
      (flush_vertical_buffer (flush_char_buffer s)))))

/-- `flush_non_char_buffers` (lines 307–320): vertical, horizontal,
vertical scroll, horizontal scroll, others. -/
def flush_non_char_buffers (s : OperatorState) : OperatorState :=
  flush_others_buffer (flush_horizontal_scroll_buffer
    (flush_vertical_scroll_buffer (flush_horizontal_buffer
      (flush_vertical_buffer s))))

/-- One iteration of the event loop of `EventOperator::operate`
(lines 106–208), with the source's branch structure and per-branch flush
order. -/
def operateStep (s : OperatorState) (e : Event) : OperatorState :=
  match e with
  | .resize w h =>
    let s := flush_all_buffers s
    { s with lastResize := some (w, h), resizeIndex := some s.result.length }
  | e =>
    match extract_char e with
    | some ch =>
      let s := flush_non_char_buffers s
      { s with chars := s.chars ++ [ch] }
    | none =>
      match detect_vertical_direction e with
      | some (u, d) =>
        let s := flush_char_buffer s
        let s := flush_horizontal_buffer s
        let s := flush_vertical_scroll_buffer s
        let s := flush_horizontal_scroll_buffer s
        let s := flush_others_buffer s
        { s with vertical := (s.vertical.1 + u, s.vertical.2 + d) }
      | none =>
        match detect_vertical_scroll e with
        | some (u, d) =>
          let s := flush_char_buffer s
          let s := flush_vertical_buffer s
          let s := flush_horizontal_buffer s
          let s := flush_horizontal_scroll_buffer s
          let s := flush_others_buffer s
          { s with
            verticalScroll := (s.verticalScroll.1 + u, s.verticalScroll.2 + d) }
        | none =>
          match detect_horizontal_direction e with
          | some (l, r) =>
            let s := flush_char_buffer s
            let s := flush_vertical_buffer s
            let s := flush_vertical_scroll_buffer s
            let s := flush_horizontal_scroll_buffer s
            let s := flush_others_buffer s
            { s with horizontal := (s.horizontal.1 + l, s.horizontal.2 + r) }
          | none =>
            match detect_horizontal_scroll e with
            | some (l, r) =>
              let s := flush_char_buffer s
              let s := flush_vertical_buffer s
              let s := flush_vertical_scroll_buffer s
              let s := flush_horizontal_buffer s
              let s := flush_others_buffer s
              { s with horizontalScroll :=
                (s.horizontalScroll.1 + l, s.horizontalScroll.2 + r) }
            | none =>
              let s := flush_char_buffer s
              let s := flush_vertical_buffer s
              let s := flush_vertical_scroll_buffer s
              let s := flush_horizontal_buffer s
              let s := flush_horizontal_scroll_buffer s
              match s.others with
              | some (le, c) =>
                if le = e then { s with others := some (le, c + 1) }
                else
                  let s := flush_others_buffer s
                  { s with others := some (e, 1) }
              | none =>
                let s := flush_others_buffer s
                { s with others := some (e, 1) }

/-- `Vec::insert(idx, x)`: insert at position `idx` (in `operate` the index
is always at most the length). -/
def insertAt {α : Type} (i : Nat) (x : α) : List α → List α
  | xs =>
    match i, xs with
    | 0, xs => x :: xs
    | _ + 1, [] => [x]
    | i + 1, y :: ys => y :: insertAt i x ys

/-- `EventOperator::operate` (`operator.rs` lines 91–227): fold the batch
through the event loop, flush the remaining buffers, and splice in the
debounced resize at the recorded index, if any. -/
def operate (events : List Event) : List EventStream :=
  let s := events.foldl operateStep initOperatorState
  let s := flush_all_buffers s
  match s.lastResize, s.resizeIndex with
  | some (w, h), some idx =>
    insertAt idx (EventStream.debounce (.resize w h)) s.result
  | _, _ => s.result

/-- A plain character key press. -/
def charEvent (c : Char) : Event := .key ⟨.char c, 0, .press, 0⟩

/-- The unit test of `operator.rs` (lines 396–548), reproduced: the
embedding agrees with the expected output of the source's own test. -/
theorem operate_matches_unit_test :
    operate [
      charEvent 'a',
      .key ⟨.char 'B', 1, .press, 0⟩,
      charEvent 'c',
      .resize 128 128,
      .resize 256 256,
      .key ⟨.up, 0, .press, 0⟩,
      .key ⟨.down, 0, .press, 0⟩,
      .key ⟨.up, 0, .press, 0⟩,
      .mouse ⟨.scrollDown, 0, 0, 0⟩,
      .mouse ⟨.scrollUp, 0, 0, 0⟩,
      .key ⟨.left, 0, .press, 0⟩,
      .key ⟨.right, 0, .press, 0⟩,
      .key ⟨.left, 0, .press, 0⟩,
      .key ⟨.char 'f', 2, .press, 0⟩,
      .key ⟨.char 'f', 2, .press, 0⟩,
      .key ⟨.char 'f', 2, .press, 0⟩,
      .key ⟨.char 'd', 2, .press, 0⟩,
      .key ⟨.up, 0, .press, 0⟩,
      .resize 64 64,
      charEvent 'd'] = [
      .buffer (.key ['a', 'B', 'c']),
      .buffer (.verticalCursor 2 1),
      .buffer (.verticalScroll 1 1),
      .buffer (.horizontalCursor 2 1),
      .buffer (.other (.key ⟨.char 'f', 2, .press, 0⟩) 3),
      .buffer (.other (.key ⟨.char 'd', 2, .press, 0⟩) 1),
      .buffer (.verticalCursor 1 0),
      .debounce (.resize 64 64),
      .buffer (.key ['d'])] := by
  set_option maxRecDepth 4096 in decide

/- ------------------------------------------------------------------ -/
/- Flush normal forms                                                  -/
/- ------------------------------------------------------------------ -/

def charDelta (cs : List Char) : List EventStream :=
  if cs.isEmpty then [] else [.buffer (.key cs)]

def vertDelta (p : Nat × Nat) : List EventStream :=
  if p = (0, 0) then [] else [.buffer (.verticalCursor p.1 p.2)]

def horizDelta (p : Nat × Nat) : List EventStream :=
  if p = (0, 0) then [] else [.buffer (.horizontalCursor p.1 p.2)]

def vscrollDelta (p : Nat × Nat) : List EventStream :=
  if p = (0, 0) then [] else [.buffer (.verticalScroll p.1 p.2)]

def hscrollDelta (p : Nat × Nat) : List EventStream :=
  if p = (0, 0) then [] else [.buffer (.horizontalScroll p.1 p.2)]

def othersDelta : Option (Event × Nat) → List EventStream
  | some (e, c) => [.buffer (.other e c)]
  | none => []

theorem flush_char_eq (s : OperatorState) :
    flush_char_buffer s =
      { s with result := s.result ++ charDelta s.chars, chars := [] } := by
  unfold flush_char_buffer charDelta
  split
  · rename_i h
    have h2 : s.chars = [] := by
      simpa using h
    cases s
    simp_all
  · rfl

theorem flush_vertical_eq (s : OperatorState) :
    flush_vertical_buffer s =
      { s with
        result := s.result ++ vertDelta s.vertical,
        vertical := (0, 0) } := by
  unfold flush_vertical_buffer vertDelta
  split
  · rename_i h
    cases s
    simp_all
  · rfl

theorem flush_horizontal_eq (s : OperatorState) :
    flush_horizontal_buffer s =
      { s with
        result := s.result ++ horizDelta s.horizontal,
        horizontal := (0, 0) } := by
  unfold flush_horizontal_buffer horizDelta
  split
  · rename_i h
    cases s
    simp_all
  · rfl

theorem flush_vscroll_eq (s : OperatorState) :
    flush_vertical_scroll_buffer s =
      { s with
        result := s.result ++ vscrollDelta s.verticalScroll,
        verticalScroll := (0, 0) } := by
  unfold flush_vertical_scroll_buffer vscrollDelta
  split
  · rename_i h
    cases s
    simp_all
  · rfl

theorem flush_hscroll_eq (s : OperatorState) :
    flush_horizontal_scroll_buffer s =
      { s with
        result := s.result ++ hscrollDelta s.horizontalScroll,
        horizontalScroll := (0, 0) } := by
  unfold flush_horizontal_scroll_buffer hscrollDelta
  split
  · rename_i h
    cases s
    simp_all
  · rfl

theorem flush_others_eq (s : OperatorState) :
    flush_others_buffer s =
      { s with
        result := s.result ++ othersDelta s.others,
        others := none } := by
  unfold flush_others_buffer othersDelta
  split
  · rfl
  · rename_i h
    cases s
    simp_all

/-- All pending operations, in the order `flush_all_buffers` emits them. -/
def allDelta (s : OperatorState) : List EventStream :=
  charDelta s.chars ++ vertDelta s.vertical ++ horizDelta s.horizontal ++
    vscrollDelta s.verticalScroll ++ hscrollDelta s.horizontalScroll ++
    othersDelta s.others

theorem flush_all_eq (s : OperatorState) :
    flush_all_buffers s =
      { s with
        result := s.result ++ allDelta s,
        chars := [],
        vertical := (0, 0),
        horizontal := (0, 0),
        verticalScroll := (0, 0),
        horizontalScroll := (0, 0),
        others := none } := by
  unfold flush_all_buffers allDelta
  rw [flush_char_eq, flush_vertical_eq, flush_horizontal_eq,
    flush_vscroll_eq, flush_hscroll_eq, flush_others_eq]
  simp [List.append_assoc]

/-- All pending non-character operations, in the order
`flush_non_char_buffers` emits them. -/
def nonCharDelta (s : OperatorState) : List EventStream :=
  vertDelta s.vertical ++ horizDelta s.horizontal ++
    vscrollDelta s.verticalScroll ++ hscrollDelta s.horizontalScroll ++
    othersDelta s.others

theorem flush_non_char_eq (s : OperatorState) :
    flush_non_char_buffers s =
      { s with
        result := s.result ++ nonCharDelta s,
        vertical := (0, 0),
        horizontal := (0, 0),
        verticalScroll := (0, 0),
        horizontalScroll := (0, 0),
        others := none } := by
  unfold flush_non_char_buffers nonCharDelta
  rw [flush_vertical_eq, flush_horizontal_eq,
    flush_vscroll_eq, flush_hscroll_eq, flush_others_eq]
  simp [List.append_assoc]

/- ------------------------------------------------------------------ -/
/- Step normal forms                                                   -/
/- ------------------------------------------------------------------ -/

def isResizeEvt : Event → Bool
  | .resize _ _ => true
  | _ => false

theorem not_resize_of {e : Event} (h : isResizeEvt e = false) :
    ∀ w hh : Nat, e ≠ .resize w hh := by
  intro w hh he
  subst he
  cases h

/-- The non-resize path of `operateStep`, as a standalone function. -/
def operateStepCore (s : OperatorState) (e : Event) : OperatorState :=
  match extract_char e with
  | some ch =>
    let s := flush_non_char_buffers s
    { s with chars := s.chars ++ [ch] }
  | none =>
    match detect_vertical_direction e with
    | some (u, d) =>
      let s := flush_char_buffer s
      let s := flush_horizontal_buffer s
      let s := flush_vertical_scroll_buffer s
      let s := flush_horizontal_scroll_buffer s
      let s := flush_others_buffer s
      { s with vertical := (s.vertical.1 + u, s.vertical.2 + d) }
    | none =>
      match detect_vertical_scroll e with
      | some (u, d) =>
        let s := flush_char_buffer s
        let s := flush_vertical_buffer s
        let s := flush_horizontal_buffer s
        let s := flush_horizontal_scroll_buffer s
        let s := flush_others_buffer s
        { s with
          verticalScroll := (s.verticalScroll.1 + u, s.verticalScroll.2 + d) }
      | none =>
        match detect_horizontal_direction e with
        | some (l, r) =>
          let s := flush_char_buffer s
          let s := flush_vertical_buffer s
          let s := flush_vertical_scroll_buffer s
          let s := flush_horizontal_scroll_buffer s
          let s := flush_others_buffer s
          { s with horizontal := (s.horizontal.1 + l, s.horizontal.2 + r) }
        | none =>
          match detect_horizontal_scroll e with
          | some (l, r) =>
            let s := flush_char_buffer s
            let s := flush_vertical_buffer s
            let s := flush_vertical_scroll_buffer s
            let s := flush_horizontal_buffer s
            let s := flush_others_buffer s
            { s with horizontalScroll :=
              (s.horizontalScroll.1 + l, s.horizontalScroll.2 + r) }
          | none =>
            let s := flush_char_buffer s
            let s := flush_vertical_buffer s
            let s := flush_vertical_scroll_buffer s
            let s := flush_horizontal_buffer s
            let s := flush_horizontal_scroll_buffer s
            match s.others with
            | some (le, c) =>
              if le = e then { s with others := some (le, c + 1) }
              else
                let s := flush_others_buffer s
                { s with others := some (e, 1) }
            | none =>
              let s := flush_others_buffer s
              { s with others := some (e, 1) }

theorem operateStep_eq_core (s : OperatorState) (e : Event)
    (hnr : isResizeEvt e = false) :
    operateStep s e = operateStepCore s e := by
  cases e with
  | resize w h => cases hnr
  | key k => rfl
  | mouse m => rfl
  | focusGained => rfl
  | focusLost => rfl
  | paste p => rfl

theorem step_resize (s : OperatorState) (w h : Nat) :
    operateStep s (.resize w h) =
      { s with
        result := s.result ++ allDelta s,
        chars := [],
        vertical := (0, 0),
        horizontal := (0, 0),
        verticalScroll := (0, 0),
        horizontalScroll := (0, 0),
        others := none,
        lastResize := some (w, h),
        resizeIndex := some (s.result ++ allDelta s).length } := by
  show (let t := flush_all_buffers s
    { t with
      lastResize := some (w, h),
      resizeIndex := some t.result.length }) = _
  rw [flush_all_eq]

theorem step_char (s : OperatorState) (e : Event) (c : Char)
    (hc : extract_char e = some c) :
    operateStep s e =
      { s with
        result := s.result ++ nonCharDelta s,
        chars := s.chars ++ [c],
        vertical := (0, 0),
        horizontal := (0, 0),
        verticalScroll := (0, 0),
        horizontalScroll := (0, 0),
        others := none } := by
  have hnr : isResizeEvt e = false := by
    cases e <;> first | rfl | simp [extract_char] at hc
  rw [operateStep_eq_core s e hnr]
  unfold operateStepCore
  simp only [hc]
  rw [flush_non_char_eq]

theorem step_vert (s : OperatorState) (e : Event) (u d : Nat)
    (hc : extract_char e = none)
    (hv : detect_vertical_direction e = some (u, d)) :
    operateStep s e =
      { s with
        result := s.result ++ charDelta s.chars ++ horizDelta s.horizontal ++
          vscrollDelta s.verticalScroll ++ hscrollDelta s.horizontalScroll ++
          othersDelta s.others,
        chars := [],
        vertical := (s.vertical.1 + u, s.vertical.2 + d),
        horizontal := (0, 0),
        verticalScroll := (0, 0),
        horizontalScroll := (0, 0),
        others := none } := by
  have hnr : isResizeEvt e = false := by
    cases e <;> first | rfl | simp [detect_vertical_direction] at hv
  rw [operateStep_eq_core s e hnr]
  unfold operateStepCore
  simp only [hc, hv]
  rw [flush_char_eq, flush_horizontal_eq, flush_vscroll_eq, flush_hscroll_eq,
    flush_others_eq]

theorem step_vscroll (s : OperatorState) (e : Event) (u d : Nat)
    (hc : extract_char e = none)
    (hv : detect_vertical_direction e = none)
    (hvs : detect_vertical_scroll e = some (u, d)) :
    operateStep s e =
      { s with
        result := s.result ++ charDelta s.chars ++ vertDelta s.vertical ++
          horizDelta s.horizontal ++ hscrollDelta s.horizontalScroll ++
          othersDelta s.others,
        chars := [],
        vertical := (0, 0),
        horizontal := (0, 0),
        verticalScroll := (s.verticalScroll.1 + u, s.verticalScroll.2 + d),
        horizontalScroll := (0, 0),
        others := none } := by
  have hnr : isResizeEvt e = false := by
    cases e <;> first | rfl | simp [detect_vertical_scroll] at hvs
  rw [operateStep_eq_core s e hnr]
  unfold operateStepCore
  simp only [hc, hv, hvs]
  rw [flush_char_eq, flush_vertical_eq, flush_horizontal_eq, flush_hscroll_eq,
    flush_others_eq]

theorem step_horiz (s : OperatorState) (e : Event) (l r : Nat)
    (hc : extract_char e = none)
    (hv : detect_vertical_direction e = none)
    (hvs : detect_vertical_scroll e = none)
    (hh : detect_horizontal_direction e = some (l, r)) :
    operateStep s e =
      { s with
        result := s.result ++ charDelta s.chars ++ vertDelta s.vertical ++
          vscrollDelta s.verticalScroll ++ hscrollDelta s.horizontalScroll ++
          othersDelta s.others,
        chars := [],
        vertical := (0, 0),
        horizontal := (s.horizontal.1 + l, s.horizontal.2 + r),
        verticalScroll := (0, 0),
        horizontalScroll := (0, 0),
        others := none } := by
  have hnr : isResizeEvt e = false := by
    cases e <;> first | rfl | simp [detect_horizontal_direction] at hh
  rw [operateStep_eq_core s e hnr]
  unfold operateStepCore
  simp only [hc, hv, hvs, hh]
  rw [flush_char_eq, flush_vertical_eq, flush_vscroll_eq, flush_hscroll_eq,
    flush_others_eq]

theorem step_hscroll (s : OperatorState) (e : Event) (l r : Nat)
    (hc : extract_char e = none)
    (hv : detect_vertical_direction e = none)
    (hvs : detect_vertical_scroll e = none)
    (hh : detect_horizontal_direction e = none)
    (hhs : detect_horizontal_scroll e = some (l, r)) :
    operateStep s e =
      { s with
        result := s.result ++ charDelta s.chars ++ vertDelta s.vertical ++
          vscrollDelta s.verticalScroll ++ horizDelta s.horizontal ++
          othersDelta s.others,
        chars := [],
        vertical := (0, 0),
        horizontal := (0, 0),
        verticalScroll := (0, 0),
        horizontalScroll := (s.horizontalScroll.1 + l, s.horizontalScroll.2 + r),
        others := none } := by
  have hnr : isResizeEvt e = false := by
    cases e <;> first | rfl | simp [detect_horizontal_scroll] at hhs
  rw [operateStep_eq_core s e hnr]
  unfold operateStepCore
  simp only [hc, hv, hvs, hh, hhs]
  rw [flush_char_eq, flush_vertical_eq, flush_vscroll_eq, flush_horizontal_eq,
    flush_others_eq]

theorem step_other_none (s : OperatorState) (e : Event)
    (hc : extract_char e = none)
    (hv : detect_vertical_direction e = none)
    (hvs : detect_vertical_scroll e = none)
    (hh : detect_horizontal_direction e = none)
    (hhs : detect_horizontal_scroll e = none)
    (hnr : isResizeEvt e = false)
    (ho : s.others = none) :
    operateStep s e =
      { s with
        result := s.result ++ charDelta s.chars ++ vertDelta s.vertical ++
          vscrollDelta s.verticalScroll ++ horizDelta s.horizontal ++
          hscrollDelta s.horizontalScroll,
        chars := [],
        vertical := (0, 0),
        horizontal := (0, 0),
        verticalScroll := (0, 0),
        horizontalScroll := (0, 0),
        others := some (e, 1) } := by
  rw [operateStep_eq_core s e hnr]
  unfold operateStepCore
  simp only [hc, hv, hvs, hh, hhs]
  rw [flush_char_eq, flush_vertical_eq, flush_vscroll_eq, flush_horizontal_eq,
    flush_hscroll_eq]
  simp only [ho]
  rw [flush_others_eq]
  simp [othersDelta, List.append_assoc]

theorem step_other_same (s : OperatorState) (e : Event) (c : Nat)
    (hc : extract_char e = none)
    (hv : detect_vertical_direction e = none)
    (hvs : detect_vertical_scroll e = none)
    (hh : detect_horizontal_direction e = none)
    (hhs : detect_horizontal_scroll e = none)
    (hnr : isResizeEvt e = false)
    (ho : s.others = some (e, c)) :
    operateStep s e =
      { s with
        result := s.result ++ charDelta s.chars ++ vertDelta s.vertical ++
          vscrollDelta s.verticalScroll ++ horizDelta s.horizontal ++
          hscrollDelta s.horizontalScroll,
        chars := [],
        vertical := (0, 0),
        horizontal := (0, 0),
        verticalScroll := (0, 0),
        horizontalScroll := (0, 0),
        others := some (e, c + 1) } := by
  rw [operateStep_eq_core s e hnr]
  unfold operateStepCore
  simp only [hc, hv, hvs, hh, hhs]
  rw [flush_char_eq, flush_vertical_eq, flush_vscroll_eq, flush_horizontal_eq,
    flush_hscroll_eq]
  simp only [ho]
  simp [List.append_assoc]

theorem step_other_diff (s : OperatorState) (e le : Event) (c : Nat)
    (hc : extract_char e = none)
    (hv : detect_vertical_direction e = none)
    (hvs : detect_vertical_scroll e = none)
    (hh : detect_horizontal_direction e = none)
    (hhs : detect_horizontal_scroll e = none)
    (hnr : isResizeEvt e = false)
    (ho : s.others = some (le, c))
    (hne : le ≠ e) :
    operateStep s e =
      { s with
        result := s.result ++ charDelta s.chars ++ vertDelta s.vertical ++
          vscrollDelta s.verticalScroll ++ horizDelta s.horizontal ++
          hscrollDelta s.horizontalScroll ++ [.buffer (.other le c)],
        chars := [],
        vertical := (0, 0),
        horizontal := (0, 0),
        verticalScroll := (0, 0),
        horizontalScroll := (0, 0),
        others := some (e, 1) } := by
  rw [operateStep_eq_core s e hnr]
  unfold operateStepCore
  simp only [hc, hv, hvs, hh, hhs]
  rw [flush_char_eq, flush_vertical_eq, flush_vscroll_eq, flush_horizontal_eq,
    flush_hscroll_eq]
  simp only [ho]
  rw [if_neg hne]
  rw [flush_others_eq]
  simp [othersDelta, List.append_assoc]

/- ------------------------------------------------------------------ -/
/- Framing: the emitted operations depend only on the accumulators     -/
/- ------------------------------------------------------------------ -/

/-- The accumulator fields of the operator state. -/
structure BufState where
  chars : List Char
  vertical : Nat × Nat
  horizontal : Nat × Nat
  verticalScroll : Nat × Nat
  horizontalScroll : Nat × Nat
  others : Option (Event × Nat)
deriving DecidableEq

def bufsOf (s : OperatorState) : BufState :=
  ⟨s.chars, s.vertical, s.horizontal, s.verticalScroll, s.horizontalScroll,
    s.others⟩

def stateOfBufs (b : BufState) : OperatorState :=
  ⟨[], b.chars, b.vertical, b.horizontal, b.verticalScroll,
    b.horizontalScroll, b.others, none, none⟩

/-- One non-resize step splits into the step from the bare accumulator
state, with the previous result as a prefix and the resize registers
untouched. -/
theorem operateStep_split (e : Event) (hnr : isResizeEvt e = false)
    (s : OperatorState) :
    operateStep s e =
      { operateStep (stateOfBufs (bufsOf s)) e with
        result := s.result ++ (operateStep (stateOfBufs (bufsOf s)) e).result,
        lastResize := s.lastResize,
        resizeIndex := s.resizeIndex } := by
  cases hc : extract_char e with
  | some ch =>
    rw [step_char s e ch hc, step_char (stateOfBufs (bufsOf s)) e ch hc]
    simp [stateOfBufs, bufsOf, nonCharDelta]
  | none =>
    cases hv : detect_vertical_direction e with
    | some p =>
      obtain ⟨u, d⟩ := p
      rw [step_vert s e u d hc hv, step_vert (stateOfBufs (bufsOf s)) e u d hc hv]
      simp [stateOfBufs, bufsOf]
    | none =>
      cases hvs : detect_vertical_scroll e with
      | some p =>
        obtain ⟨u, d⟩ := p
        rw [step_vscroll s e u d hc hv hvs,
          step_vscroll (stateOfBufs (bufsOf s)) e u d hc hv hvs]
        simp [stateOfBufs, bufsOf]
      | none =>
        cases hh : detect_horizontal_direction e with
        | some p =>
          obtain ⟨l, r⟩ := p
          rw [step_horiz s e l r hc hv hvs hh,
            step_horiz (stateOfBufs (bufsOf s)) e l r hc hv hvs hh]
          simp [stateOfBufs, bufsOf]
        | none =>
          cases hhs : detect_horizontal_scroll e with
          | some p =>
            obtain ⟨l, r⟩ := p
            rw [step_hscroll s e l r hc hv hvs hh hhs,
              step_hscroll (stateOfBufs (bufsOf s)) e l r hc hv hvs hh hhs]
            simp [stateOfBufs, bufsOf]
          | none =>
            cases ho : s.others with
            | none =>
              rw [step_other_none s e hc hv hvs hh hhs hnr ho,
                step_other_none (stateOfBufs (bufsOf s)) e hc hv hvs hh hhs hnr ho]
              simp [stateOfBufs, bufsOf]
            | some p =>
              obtain ⟨le, c⟩ := p
              by_cases hle : le = e
              · subst hle
                rw [step_other_same s le c hc hv hvs hh hhs hnr ho,
                  step_other_same (stateOfBufs (bufsOf s)) le c hc hv hvs hh hhs hnr ho]
                simp [stateOfBufs, bufsOf]
              · rw [step_other_diff s e le c hc hv hvs hh hhs hnr ho hle,
                  step_other_diff (stateOfBufs (bufsOf s)) e le c hc hv hvs hh hhs hnr ho hle]
                simp [stateOfBufs, bufsOf]

/-- Folding a resize-free batch splits likewise: the result grows by a
batch-determined suffix, the accumulators evolve independently of the
previous result, and the resize registers are untouched. -/
theorem foldl_split :
    ∀ (es : List Event), (∀ e ∈ es, isResizeEvt e = false) →
    ∀ s : OperatorState,
    (es.foldl operateStep s).result =
        s.result ++ (es.foldl operateStep (stateOfBufs (bufsOf s))).result ∧
    bufsOf (es.foldl operateStep s) =
        bufsOf (es.foldl operateStep (stateOfBufs (bufsOf s))) ∧
    (es.foldl operateStep s).lastResize = s.lastResize ∧
    (es.foldl operateStep s).resizeIndex = s.resizeIndex := by
  intro es
  induction es with
  | nil =>
    intro _ s
    exact ⟨by simp [stateOfBufs], rfl, rfl, rfl⟩
  | cons e es ih =>
    intro hnr s
    have he : isResizeEvt e = false := hnr e (List.mem_cons_self e es)
    have hnr2 : ∀ x ∈ es, isResizeEvt x = false :=
      fun x hx => hnr x (List.mem_cons_of_mem e hx)
    have hsplit := operateStep_split e he s
    have hbufs : bufsOf (operateStep s e) =
        bufsOf (operateStep (stateOfBufs (bufsOf s)) e) := by
      rw [hsplit]
      rfl
    obtain ⟨iA1, iA2, iA3, iA4⟩ := ih hnr2 (operateStep s e)
    obtain ⟨iB1, iB2, iB3, iB4⟩ :=
      ih hnr2 (operateStep (stateOfBufs (bufsOf s)) e)
    have hfold : (e :: es).foldl operateStep s = es.foldl operateStep (operateStep s e) := rfl
    have hfoldB : (e :: es).foldl operateStep (stateOfBufs (bufsOf s)) =
        es.foldl operateStep (operateStep (stateOfBufs (bufsOf s)) e) := rfl
    rw [hfold, hfoldB]
    refine ⟨?_, ?_, ?_, ?_⟩
    · rw [iA1, iB1, hbufs]
      have hres : (operateStep s e).result =
          s.result ++ (operateStep (stateOfBufs (bufsOf s)) e).result := by
        rw [hsplit]
      rw [hres, List.append_assoc]
    · rw [iA2, iB2, hbufs]
    · have hlr : (operateStep s e).lastResize = s.lastResize := by
        rw [hsplit]
      rw [iA3, hlr]
    · have hri : (operateStep s e).resizeIndex = s.resizeIndex := by
        rw [hsplit]
      rw [iA4, hri]

/- ------------------------------------------------------------------ -/
/- Event categories and the single-active-accumulator invariant        -/
/- ------------------------------------------------------------------ -/

/-- The aggregation category of an event, mirroring the branch cascade of
`operate`: two events accumulate into the same buffer exactly when they
have the same category (for "other" events, when they are identical). -/
inductive ECat where
  | mchar
  | mvert
  | mvscroll
  | mhoriz
  | mhscroll
  | mother (e : Event)
  | mresize
deriving DecidableEq

def categorize (e : Event) : ECat :=
  if isResizeEvt e then .mresize
  else match extract_char e with
  | some _ => .mchar
  | none =>
    match detect_vertical_direction e with
    | some _ => .mvert
    | none =>
      match detect_vertical_scroll e with
      | some _ => .mvscroll
      | none =>
        match detect_horizontal_direction e with
        | some _ => .mhoriz
        | none =>
          match detect_horizontal_scroll e with
          | some _ => .mhscroll
          | none => .mother e

/-- Every accumulator except (possibly) the one of category `k` is empty. -/
def onlyActive (s : OperatorState) (k : ECat) : Prop :=
  (k ≠ .mchar → s.chars = []) ∧
  (k ≠ .mvert → s.vertical = (0, 0)) ∧
  (k ≠ .mvscroll → s.verticalScroll = (0, 0)) ∧
  (k ≠ .mhoriz → s.horizontal = (0, 0)) ∧
  (k ≠ .mhscroll → s.horizontalScroll = (0, 0)) ∧
  (∀ e2 c, s.others = some (e2, c) → k = .mother e2)

/-- After any non-resize step, only the buffer of the processed event's
category can be non-empty: every branch flushes all other buffers. -/
theorem step_active (s : OperatorState) (e : Event)
    (hnr : isResizeEvt e = false) :
    onlyActive (operateStep s e) (categorize e) := by
  unfold categorize
  rw [if_neg (by simp [hnr])]
  cases hc : extract_char e with
  | some ch =>
    rw [step_char s e ch hc]
    exact ⟨fun h => absurd rfl h, fun _ => rfl, fun _ => rfl, fun _ => rfl,
      fun _ => rfl, fun e2 c h => by cases h⟩
  | none =>
    cases hv : detect_vertical_direction e with
    | some p =>
      obtain ⟨u, d⟩ := p
      rw [step_vert s e u d hc hv]
      exact ⟨fun _ => rfl, fun h => absurd rfl h, fun _ => rfl, fun _ => rfl,
        fun _ => rfl, fun e2 c h => by cases h⟩
    | none =>
      cases hvs : detect_vertical_scroll e with
      | some p =>
        obtain ⟨u, d⟩ := p
        rw [step_vscroll s e u d hc hv hvs]
        exact ⟨fun _ => rfl, fun _ => rfl, fun h => absurd rfl h, fun _ => rfl,
          fun _ => rfl, fun e2 c h => by cases h⟩
      | none =>
        cases hh : detect_horizontal_direction e with
        | some p =>
          obtain ⟨l, r⟩ := p
          rw [step_horiz s e l r hc hv hvs hh]
          exact ⟨fun _ => rfl, fun _ => rfl, fun _ => rfl, fun h => absurd rfl h,
            fun _ => rfl, fun e2 c h => by cases h⟩
        | none =>
          cases hhs : detect_horizontal_scroll e with
          | some p =>
            obtain ⟨l, r⟩ := p
            rw [step_hscroll s e l r hc hv hvs hh hhs]
            exact ⟨fun _ => rfl, fun _ => rfl, fun _ => rfl, fun _ => rfl,
              fun h => absurd rfl h, fun e2 c h => by cases h⟩
          | none =>
            cases ho : s.others with
            | none =>
              rw [step_other_none s e hc hv hvs hh hhs hnr ho]
              refine ⟨fun _ => rfl, fun _ => rfl, fun _ => rfl, fun _ => rfl,
                fun _ => rfl, fun e2 c h => ?_⟩
              obtain ⟨rfl, rfl⟩ : e = e2 ∧ 1 = c := by
                cases h
                exact ⟨rfl, rfl⟩
              rfl
            | some p =>
              obtain ⟨le, c0⟩ := p
              by_cases hle : le = e
              · subst hle
                rw [step_other_same s le c0 hc hv hvs hh hhs hnr ho]
                refine ⟨fun _ => rfl, fun _ => rfl, fun _ => rfl, fun _ => rfl,
                  fun _ => rfl, fun e2 c h => ?_⟩
                obtain ⟨rfl, rfl⟩ : le = e2 ∧ c0 + 1 = c := by
                  cases h
                  exact ⟨rfl, rfl⟩
                rfl
              · rw [step_other_diff s e le c0 hc hv hvs hh hhs hnr ho hle]
                refine ⟨fun _ => rfl, fun _ => rfl, fun _ => rfl, fun _ => rfl,
                  fun _ => rfl, fun e2 c h => ?_⟩
                obtain ⟨rfl, rfl⟩ : e = e2 ∧ 1 = c := by
                  cases h
                  exact ⟨rfl, rfl⟩
                rfl

/-- Crossing a category boundary: starting from a state whose only active
accumulator has category `k`, an event of a different (non-resize)
category first flushes exactly the pending operations (`allDelta`) and
then behaves as from the initial state. -/
theorem step_boundary (sx : OperatorState) (k : ECat) (y : Event)
    (hx : onlyActive sx k) (hnrY : isResizeEvt y = false)
    (hne : k ≠ categorize y) :
    operateStep sx y =
      { operateStep initOperatorState y with
        result := sx.result ++ allDelta sx,
        lastResize := sx.lastResize,
        resizeIndex := sx.resizeIndex } := by
  obtain ⟨h1, h2, h3, h4, h5, h6⟩ := hx
  cases hc : extract_char y with
  | some ch =>
    have hcat : categorize y = ECat.mchar := by
      simp [categorize, hnrY, hc]
    have hch : sx.chars = [] := h1 (hcat ▸ hne)
    rw [step_char sx y ch hc, step_char initOperatorState y ch hc]
    simp [hch, allDelta, nonCharDelta, charDelta, initOperatorState,
      vertDelta, horizDelta, vscrollDelta, hscrollDelta, othersDelta]
  | none =>
    cases hv : detect_vertical_direction y with
    | some p =>
      obtain ⟨u, d⟩ := p
      have hcat : categorize y = ECat.mvert := by
        simp [categorize, hnrY, hc, hv]
      have hvv : sx.vertical = (0, 0) := h2 (hcat ▸ hne)
      rw [step_vert sx y u d hc hv, step_vert initOperatorState y u d hc hv]
      simp [hvv, allDelta, charDelta, initOperatorState,
        vertDelta, horizDelta, vscrollDelta, hscrollDelta, othersDelta]
    | none =>
      cases hvs : detect_vertical_scroll y with
      | some p =>
        obtain ⟨u, d⟩ := p
        have hcat : categorize y = ECat.mvscroll := by
          simp [categorize, hnrY, hc, hv, hvs]
        have hvv : sx.verticalScroll = (0, 0) := h3 (hcat ▸ hne)
        rw [step_vscroll sx y u d hc hv hvs,
          step_vscroll initOperatorState y u d hc hv hvs]
        simp [hvv, allDelta, charDelta, initOperatorState,
          vertDelta, horizDelta, vscrollDelta, hscrollDelta, othersDelta]
      | none =>
        cases hh : detect_horizontal_direction y with
        | some p =>
          obtain ⟨l, r⟩ := p
          have hcat : categorize y = ECat.mhoriz := by
            simp [categorize, hnrY, hc, hv, hvs, hh]
          have hvv : sx.horizontal = (0, 0) := h4 (hcat ▸ hne)
          rw [step_horiz sx y l r hc hv hvs hh,
            step_horiz initOperatorState y l r hc hv hvs hh]
          simp [hvv, allDelta, charDelta, initOperatorState,
            vertDelta, horizDelta, vscrollDelta, hscrollDelta, othersDelta]
        | none =>
          cases hhs : detect_horizontal_scroll y with
          | some p =>
            obtain ⟨l, r⟩ := p
            have hcat : categorize y = ECat.mhscroll := by
              simp [categorize, hnrY, hc, hv, hvs, hh, hhs]
            have hvv : sx.horizontalScroll = (0, 0) := h5 (hcat ▸ hne)
            rw [step_hscroll sx y l r hc hv hvs hh hhs,
              step_hscroll initOperatorState y l r hc hv hvs hh hhs]
            by_cases hk : k = ECat.mvscroll
            · have hho : sx.horizontal = (0, 0) := h4 (by simp [hk])
              simp [hvv, hho, allDelta, charDelta, initOperatorState,
                vertDelta, horizDelta, vscrollDelta, hscrollDelta, othersDelta]
            · have hvsc : sx.verticalScroll = (0, 0) := h3 hk
              simp [hvv, hvsc, allDelta, charDelta, initOperatorState,
                vertDelta, horizDelta, vscrollDelta, hscrollDelta, othersDelta]
          | none =>
            have hcat : categorize y = ECat.mother y := by
              simp [categorize, hnrY, hc, hv, hvs, hh, hhs]
            cases ho : sx.others with
            | none =>
              rw [step_other_none sx y hc hv hvs hh hhs hnrY ho,
                step_other_none initOperatorState y hc hv hvs hh hhs hnrY rfl]
              by_cases hk : k = ECat.mvscroll
              · have hho : sx.horizontal = (0, 0) := h4 (by simp [hk])
                simp [hho, ho, allDelta, charDelta, initOperatorState,
                  vertDelta, horizDelta, vscrollDelta, hscrollDelta, othersDelta]
              · have hvsc : sx.verticalScroll = (0, 0) := h3 hk
                simp [hvsc, ho, allDelta, charDelta, initOperatorState,
                  vertDelta, horizDelta, vscrollDelta, hscrollDelta, othersDelta]
            | some p =>
              obtain ⟨le, c0⟩ := p
              have hkle : k = ECat.mother le := h6 le c0 ho
              have hley : le ≠ y := by
                intro hley
                rw [hkle, hley] at hne
                exact hne hcat.symm
              rw [step_other_diff sx y le c0 hc hv hvs hh hhs hnrY ho hley,
                step_other_none initOperatorState y hc hv hvs hh hhs hnrY rfl]
              have e1 : sx.chars = [] := h1 (by simp [hkle])
              have e2 : sx.vertical = (0, 0) := h2 (by simp [hkle])
              have e3 : sx.verticalScroll = (0, 0) := h3 (by simp [hkle])
              have e4 : sx.horizontal = (0, 0) := h4 (by simp [hkle])
              have e5 : sx.horizontalScroll = (0, 0) := h5 (by simp [hkle])
              simp [e1, e2, e3, e4, e5, ho, allDelta, charDelta,
                initOperatorState, vertDelta, horizDelta, vscrollDelta,
                hscrollDelta, othersDelta]

/- ------------------------------------------------------------------ -/
/- Counting debounce operations; insertion lemmas                      -/
/- ------------------------------------------------------------------ -/

def isBufferOp : EventStream → Bool
  | .buffer _ => true
  | .debounce _ => false

/-- Number of debounced operations in an output sequence. -/
def countDebounce (l : List EventStream) : Nat :=
  (l.filter (fun x => !isBufferOp x)).length

theorem insertAt_length_append {α : Type} (x : α) :
    ∀ (a b : List α), insertAt a.length x (a ++ b) = a ++ x :: b := by
  intro a
  induction a with
  | nil => intro b; rfl
  | cons c a ih =>
    intro b
    show c :: insertAt a.length x (a ++ b) = c :: (a ++ x :: b)
    rw [ih b]

theorem insertAt_perm {α : Type} (x : α) :
    ∀ (i : Nat) (l : List α), List.Perm (insertAt i x l) (x :: l) := by
  intro i
  induction i with
  | zero => intro l; exact List.Perm.refl _
  | succ i ih =>
    intro l
    cases l with
    | nil => exact List.Perm.refl _
    | cons y ys =>
      show List.Perm (y :: insertAt i x ys) (x :: y :: ys)
      exact List.Perm.trans (List.Perm.cons y (ih ys)) (List.Perm.swap x y ys)

theorem countDebounce_insertAt (i : Nat) (x : EventStream)
    (l : List EventStream) :
    countDebounce (insertAt i x l) = countDebounce (x :: l) := by
  unfold countDebounce
  exact ((insertAt_perm x i l).filter _).length_eq

theorem charDelta_buffer (cs : List Char) :
    ∀ x ∈ charDelta cs, isBufferOp x = true := by
  unfold charDelta
  split <;> simp [isBufferOp]

theorem vertDelta_buffer (p : Nat × Nat) :
    ∀ x ∈ vertDelta p, isBufferOp x = true := by
  unfold vertDelta
  split <;> simp [isBufferOp]

theorem horizDelta_buffer (p : Nat × Nat) :
    ∀ x ∈ horizDelta p, isBufferOp x = true := by
  unfold horizDelta
  split <;> simp [isBufferOp]

theorem vscrollDelta_buffer (p : Nat × Nat) :
    ∀ x ∈ vscrollDelta p, isBufferOp x = true := by
  unfold vscrollDelta
  split <;> simp [isBufferOp]

theorem hscrollDelta_buffer (p : Nat × Nat) :
    ∀ x ∈ hscrollDelta p, isBufferOp x = true := by
  unfold hscrollDelta
  split <;> simp [isBufferOp]

theorem othersDelta_buffer (o : Option (Event × Nat)) :
    ∀ x ∈ othersDelta o, isBufferOp x = true := by
  cases o with
  | none => simp [othersDelta]
  | some p => simp [othersDelta, isBufferOp]

theorem allDelta_buffer (s : OperatorState) :
    ∀ x ∈ allDelta s, isBufferOp x = true := by
  intro x hx
  simp only [allDelta, List.append_assoc, List.mem_append] at hx
  rcases hx with h | h | h | h | h | h
  · exact charDelta_buffer _ x h
  · exact vertDelta_buffer _ x h
  · exact horizDelta_buffer _ x h
  · exact vscrollDelta_buffer _ x h
  · exact hscrollDelta_buffer _ x h
  · exact othersDelta_buffer _ x h


theorem nonCharDelta_buffer (s : OperatorState) :
    ∀ x ∈ nonCharDelta s, isBufferOp x = true := by
  intro x hx
  simp only [nonCharDelta, List.append_assoc, List.mem_append] at hx
  rcases hx with h | h | h | h | h
  · exact vertDelta_buffer _ x h
  · exact horizDelta_buffer _ x h
  · exact vscrollDelta_buffer _ x h
  · exact hscrollDelta_buffer _ x h
  · exact othersDelta_buffer _ x h

/-- A non-resize step only appends buffered operations to the result. -/
theorem step_result_buffer_core (s : OperatorState) (e : Event)
    (hnr : isResizeEvt e = false)
    (hres : ∀ x ∈ s.result, isBufferOp x = true) :
    ∀ x ∈ (operateStep s e).result, isBufferOp x = true := by
  cases hc : extract_char e with
  | some ch =>
    rw [step_char s e ch hc]
    intro x hx
    rcases List.mem_append.mp hx with h | h
    · exact hres x h
    · exact nonCharDelta_buffer s x h
  | none =>
    cases hv : detect_vertical_direction e with
    | some p =>
      obtain ⟨u, d⟩ := p
      rw [step_vert s e u d hc hv]
      intro x hx
      simp only [List.append_assoc, List.mem_append] at hx
      rcases hx with h | h | h | h | h | h
      · exact hres x h
      · exact charDelta_buffer _ x h
      · exact horizDelta_buffer _ x h
      · exact vscrollDelta_buffer _ x h
      · exact hscrollDelta_buffer _ x h
      · exact othersDelta_buffer _ x h
    | none =>
      cases hvs : detect_vertical_scroll e with
      | some p =>
        obtain ⟨u, d⟩ := p
        rw [step_vscroll s e u d hc hv hvs]
        intro x hx
        simp only [List.append_assoc, List.mem_append] at hx
        rcases hx with h | h | h | h | h | h
        · exact hres x h
        · exact charDelta_buffer _ x h
        · exact vertDelta_buffer _ x h
        · exact horizDelta_buffer _ x h
        · exact hscrollDelta_buffer _ x h
        · exact othersDelta_buffer _ x h
      | none =>
        cases hh : detect_horizontal_direction e with
        | some p =>
          obtain ⟨l, r⟩ := p
          rw [step_horiz s e l r hc hv hvs hh]
          intro x hx
          simp only [List.append_assoc, List.mem_append] at hx
          rcases hx with h | h | h | h | h | h
          · exact hres x h
          · exact charDelta_buffer _ x h
          · exact vertDelta_buffer _ x h
          · exact vscrollDelta_buffer _ x h
          · exact hscrollDelta_buffer _ x h
          · exact othersDelta_buffer _ x h
        | none =>
          cases hhs : detect_horizontal_scroll e with
          | some p =>
            obtain ⟨l, r⟩ := p
            rw [step_hscroll s e l r hc hv hvs hh hhs]
            intro x hx
            simp only [List.append_assoc, List.mem_append] at hx
            rcases hx with h | h | h | h | h | h
            · exact hres x h
            · exact charDelta_buffer _ x h
            · exact vertDelta_buffer _ x h
            · exact vscrollDelta_buffer _ x h
            · exact horizDelta_buffer _ x h
            · exact othersDelta_buffer _ x h
          | none =>
            cases ho : s.others with
            | none =>
              rw [step_other_none s e hc hv hvs hh hhs hnr ho]
              intro x hx
              simp only [List.append_assoc, List.mem_append] at hx
              rcases hx with h | h | h | h | h | h
              · exact hres x h
              · exact charDelta_buffer _ x h
              · exact vertDelta_buffer _ x h
              · exact vscrollDelta_buffer _ x h
              · exact horizDelta_buffer _ x h
              · exact hscrollDelta_buffer _ x h
            | some p =>
              obtain ⟨le, c⟩ := p
              by_cases hle : le = e
              · subst hle
                rw [step_other_same s le c hc hv hvs hh hhs hnr ho]
                intro x hx
                simp only [List.append_assoc, List.mem_append] at hx
                rcases hx with h | h | h | h | h | h
                · exact hres x h
                · exact charDelta_buffer _ x h
                · exact vertDelta_buffer _ x h
                · exact vscrollDelta_buffer _ x h
                · exact horizDelta_buffer _ x h
                · exact hscrollDelta_buffer _ x h
              · rw [step_other_diff s e le c hc hv hvs hh hhs hnr ho hle]
                intro x hx
                simp only [List.append_assoc, List.mem_append] at hx
                rcases hx with h | h | h | h | h | h | h
                · exact hres x h
                · exact charDelta_buffer _ x h
                · exact vertDelta_buffer _ x h
                · exact vscrollDelta_buffer _ x h
                · exact horizDelta_buffer _ x h
                · exact hscrollDelta_buffer _ x h
                · simp only [List.mem_singleton] at h
                  subst h
                  rfl

/-- Every step (resize included) only appends buffered operations. -/
theorem step_result_buffer (s : OperatorState) (e : Event)
    (hres : ∀ x ∈ s.result, isBufferOp x = true) :
    ∀ x ∈ (operateStep s e).result, isBufferOp x = true := by
  cases e with
  | resize w h =>
    rw [step_resize]
    intro x hx
    rcases List.mem_append.mp hx with h | h
    · exact hres x h
    · exact allDelta_buffer s x h
  | key k => exact step_result_buffer_core s (.key k) rfl hres
  | mouse m => exact step_result_buffer_core s (.mouse m) rfl hres
  | focusGained => exact step_result_buffer_core s .focusGained rfl hres
  | focusLost => exact step_result_buffer_core s .focusLost rfl hres
  | paste p => exact step_result_buffer_core s (.paste p) rfl hres

theorem foldl_result_buffer :
    ∀ (es : List Event) (s : OperatorState),
    (∀ x ∈ s.result, isBufferOp x = true) →
    ∀ x ∈ (es.foldl operateStep s).result, isBufferOp x = true := by
  intro es
  induction es with
  | nil => intro s h; exact h
  | cons e es ih =>
    intro s h
    exact ih (operateStep s e) (step_result_buffer s e h)

theorem countDebounce_eq_zero (l : List EventStream)
    (h : ∀ x ∈ l, isBufferOp x = true) : countDebounce l = 0 := by
  unfold countDebounce
  have hnil : l.filter (fun x => !isBufferOp x) = [] := by
    rw [List.filter_eq_nil_iff]
    intro a ha
    simp [h a ha]
  rw [hnil]
  rfl

theorem countDebounce_cons_debounce (d : Debounce) (l : List EventStream) :
    countDebounce (.debounce d :: l) = countDebounce l + 1 := by
  unfold countDebounce
  rw [List.filter_cons_of_pos (by rfl)]
  rfl

theorem flush_all_result (s : OperatorState) :
    (flush_all_buffers s).result = s.result ++ allDelta s := by
  rw [flush_all_eq]

theorem flush_all_lr (s : OperatorState) :
    (flush_all_buffers s).lastResize = s.lastResize := by
  rw [flush_all_eq]

theorem flush_all_ri (s : OperatorState) :
    (flush_all_buffers s).resizeIndex = s.resizeIndex := by
  rw [flush_all_eq]

/-- `operate`, with the final splice spelled out. -/
theorem operate_def (events : List Event) :
    operate events =
      match
        (flush_all_buffers (events.foldl operateStep
          initOperatorState)).lastResize,
        (flush_all_buffers (events.foldl operateStep
          initOperatorState)).resizeIndex with
      | some (w, h), some idx =>
        insertAt idx (EventStream.debounce (.resize w h))
          (flush_all_buffers (events.foldl operateStep
            initOperatorState)).result
      | _, _ =>
        (flush_all_buffers (events.foldl operateStep
          initOperatorState)).result := rfl

/-- The operations `operate` emits for a batch with no recorded resize:
fold, then flush everything. -/
def operateCore (events : List Event) : List EventStream :=
  (flush_all_buffers (events.foldl operateStep initOperatorState)).result

theorem operate_no_resize (events : List Event)
    (hnr : ∀ e ∈ events, isResizeEvt e = false) :
    operate events = operateCore events := by
  have hlr : (flush_all_buffers (events.foldl operateStep
      initOperatorState)).lastResize = none := by
    rw [flush_all_lr]
    exact (foldl_split events hnr initOperatorState).2.2.1.trans rfl
  rw [operate_def, hlr]
  cases (flush_all_buffers (events.foldl operateStep
    initOperatorState)).resizeIndex <;> rfl

theorem countDebounce_le_aux (lr : Option (Nat × Nat)) (ri : Option Nat)
    (res : List EventStream) (hbuf : ∀ x ∈ res, isBufferOp x = true) :
    countDebounce (match lr, ri with
      | some (w, h), some idx =>
        insertAt idx (EventStream.debounce (.resize w h)) res
      | _, _ => res) ≤ 1 := by
  rcases lr with _ | ⟨w0, h0⟩
  · show countDebounce res ≤ 1
    rw [countDebounce_eq_zero res hbuf]
    exact Nat.zero_le 1
  · rcases ri with _ | idx
    · show countDebounce res ≤ 1
      rw [countDebounce_eq_zero res hbuf]
      exact Nat.zero_le 1
    · show countDebounce
        (insertAt idx (EventStream.debounce (.resize w0 h0)) res) ≤ 1
      rw [countDebounce_insertAt, countDebounce_cons_debounce,
        countDebounce_eq_zero res hbuf]

theorem operate_countDebounce (events : List Event) :
    countDebounce (operate events) ≤ 1 := by
  have hbuf : ∀ x ∈ (flush_all_buffers (events.foldl operateStep
      initOperatorState)).result, isBufferOp x = true := by
    intro x hx
    rw [flush_all_result] at hx
    rcases List.mem_append.mp hx with h | h
    · exact foldl_result_buffer events initOperatorState
        (by intro x hx; cases hx) x h
    · exact allDelta_buffer _ x h
  rw [operate_def]
  exact countDebounce_le_aux _ _ _ hbuf

theorem allDelta_bufs (s s' : OperatorState) (h : bufsOf s = bufsOf s') :
    allDelta s = allDelta s' := by
  injection h with h1 h2 h3 h4 h5 h6
  unfold allDelta
  rw [h1, h2, h3, h4, h5, h6]

/-- The debounced resize is spliced right after all operations flushed up
to and including the last resize event; for a batch whose suffix after the
last resize is resize-free, the output decomposes around that point. -/
theorem operate_resize_split (l : List Event) (w h : Nat) (r : List Event)
    (hnr : ∀ e ∈ r, isResizeEvt e = false) :
    operate (l ++ Event.resize w h :: r) =
      operateCore l ++ EventStream.debounce (.resize w h) :: operate r := by
  have hcore_l : operateCore l =
      (l.foldl operateStep initOperatorState).result ++
        allDelta (l.foldl operateStep initOperatorState) :=
    flush_all_result _
  have hstep := step_resize (l.foldl operateStep initOperatorState) w h
  have hres2 : (operateStep (l.foldl operateStep initOperatorState)
      (Event.resize w h)).result = operateCore l := by
    rw [hstep, hcore_l]
  have hlr2 : (operateStep (l.foldl operateStep initOperatorState)
      (Event.resize w h)).lastResize = some (w, h) := by
    rw [hstep]
  have hri2 : (operateStep (l.foldl operateStep initOperatorState)
      (Event.resize w h)).resizeIndex = some (operateCore l).length := by
    rw [hstep, hcore_l]
  have hbufs2 : stateOfBufs (bufsOf (operateStep
      (l.foldl operateStep initOperatorState) (Event.resize w h))) =
      initOperatorState := by
    rw [hstep]
    rfl
  obtain ⟨hr1, hr2, hr3, hr4⟩ := foldl_split r hnr
    (operateStep (l.foldl operateStep initOperatorState) (Event.resize w h))
  rw [hbufs2] at hr1 hr2
  have hAD : allDelta (r.foldl operateStep (operateStep
      (l.foldl operateStep initOperatorState) (Event.resize w h))) =
      allDelta (r.foldl operateStep initOperatorState) :=
    allDelta_bufs _ _ hr2
  have hopr : operate r =
      (r.foldl operateStep initOperatorState).result ++
        allDelta (r.foldl operateStep initOperatorState) := by
    rw [operate_no_resize r hnr]
    exact flush_all_result _
  have hfold : (l ++ Event.resize w h :: r).foldl operateStep
      initOperatorState = r.foldl operateStep (operateStep
        (l.foldl operateStep initOperatorState) (Event.resize w h)) := by
    rw [List.foldl_append]
    rfl
  have hXlr : (flush_all_buffers (r.foldl operateStep (operateStep
      (l.foldl operateStep initOperatorState)
      (Event.resize w h)))).lastResize = some (w, h) := by
    rw [flush_all_lr, hr3, hlr2]
  have hXri : (flush_all_buffers (r.foldl operateStep (operateStep
      (l.foldl operateStep initOperatorState)
      (Event.resize w h)))).resizeIndex = some (operateCore l).length := by
    rw [flush_all_ri, hr4, hri2]
  have hXres : (flush_all_buffers (r.foldl operateStep (operateStep
      (l.foldl operateStep initOperatorState)
      (Event.resize w h)))).result =
      operateCore l ++ ((r.foldl operateStep initOperatorState).result ++
        allDelta (r.foldl operateStep initOperatorState)) := by
    rw [flush_all_result, hr1, hres2, hAD, List.append_assoc]
  rw [operate_def, hfold, hXlr, hXri, hXres]
  show insertAt (operateCore l).length (EventStream.debounce (.resize w h))
      (operateCore l ++ ((r.foldl operateStep initOperatorState).result ++
        allDelta (r.foldl operateStep initOperatorState))) = _
  rw [insertAt_length_append, hopr]

theorem onlyActive_init (k : ECat) : onlyActive initOperatorState k :=
  ⟨fun _ => rfl, fun _ => rfl, fun _ => rfl, fun _ => rfl, fun _ => rfl,
    fun _ _ h => by cases h⟩

theorem stateOfBufs_fix (s : OperatorState) (h1 : s.result = [])
    (h2 : s.lastResize = none) (h3 : s.resizeIndex = none) :
    stateOfBufs (bufsOf s) = s := by
  cases s
  simp_all [stateOfBufs, bufsOf]

theorem categorize_mother (e e' : Event) (h : categorize e = ECat.mother e') :
    extract_char e = none ∧ detect_vertical_direction e = none ∧
    detect_vertical_scroll e = none ∧ detect_horizontal_direction e = none ∧
    detect_horizontal_scroll e = none ∧ isResizeEvt e = false ∧ e' = e := by
  unfold categorize at h
  cases hr : isResizeEvt e with
  | true =>
    rw [hr] at h
    simp at h
  | false =>
    rw [hr] at h
    simp only [Bool.false_eq_true, if_false] at h
    cases hc : extract_char e with
    | some c =>
      rw [hc] at h
      cases h
    | none =>
      rw [hc] at h
      cases hv : detect_vertical_direction e with
      | some p =>
        rw [hv] at h
        cases h
      | none =>
        rw [hv] at h
        cases hvs : detect_vertical_scroll e with
        | some p =>
          rw [hvs] at h
          cases h
        | none =>
          rw [hvs] at h
          cases hh : detect_horizontal_direction e with
          | some p =>
            rw [hh] at h
            cases h
          | none =>
            rw [hh] at h
            cases hhs : detect_horizontal_scroll e with
            | some p =>
              rw [hhs] at h
              cases h
            | none =>
              rw [hhs] at h
              injection h with he
              exact ⟨rfl, rfl, rfl, rfl, rfl, rfl, he.symm⟩

/-- Folding a run of plain character events from a state whose non-char
accumulators are empty only extends the character buffer. -/
theorem foldl_char_run :
    ∀ (cs : List Char) (s : OperatorState),
    s.vertical = (0, 0) → s.horizontal = (0, 0) →
    s.verticalScroll = (0, 0) → s.horizontalScroll = (0, 0) →
    s.others = none →
    (cs.map charEvent).foldl operateStep s = { s with chars := s.chars ++ cs } := by
  intro cs
  induction cs with
  | nil =>
    intro s _ _ _ _ _
    show s = { s with chars := s.chars ++ [] }
    rw [List.append_nil]
  | cons c cs ih =>
    intro s h1 h2 h3 h4 h5
    show (cs.map charEvent).foldl operateStep (operateStep s (charEvent c)) = _
    rw [step_char s (charEvent c) c rfl]
    have hstep : { s with
        result := s.result ++ nonCharDelta s,
        chars := s.chars ++ [c],
        vertical := (0, 0),
        horizontal := (0, 0),
        verticalScroll := (0, 0),
        horizontalScroll := (0, 0),
        others := none } = { s with chars := s.chars ++ [c] } := by
      have hnc : nonCharDelta s = [] := by
        simp [nonCharDelta, h1, h2, h3, h4, h5, vertDelta, horizDelta,
          vscrollDelta, hscrollDelta, othersDelta]
      cases s
      simp_all
    rw [hstep]
    rw [ih { s with chars := s.chars ++ [c] } h1 h2 h3 h4 h5]
    simp

/-- A non-empty run of character events yields exactly one character-run
operation holding the whole run. -/
theorem operate_char_run (cs : List Char) (hne : cs ≠ []) :
    operate (cs.map charEvent) = [.buffer (.key cs)] := by
  have hnr : ∀ e ∈ cs.map charEvent, isResizeEvt e = false := by
    intro e he
    rcases List.mem_map.mp he with ⟨c, _, rfl⟩
    rfl
  have hemp : cs.isEmpty = false := by
    cases cs with
    | nil => exact absurd rfl hne
    | cons a l => rfl
  rw [operate_no_resize _ hnr]
  show (flush_all_buffers ((cs.map charEvent).foldl operateStep
    initOperatorState)).result = _
  rw [foldl_char_run cs initOperatorState rfl rfl rfl rfl rfl,
    flush_all_result]
  simp [allDelta, charDelta, initOperatorState, vertDelta, horizDelta,
    vscrollDelta, hscrollDelta, othersDelta, hemp]

/-- Folding a run of an identical "other" event from a state already
accumulating that event only increments its repeat counter. -/
theorem foldl_other_run :
    ∀ (k : Nat) (e : Event) (j : Nat) (s : OperatorState),
    categorize e = ECat.mother e →
    s.chars = [] → s.vertical = (0, 0) → s.horizontal = (0, 0) →
    s.verticalScroll = (0, 0) → s.horizontalScroll = (0, 0) →
    s.others = some (e, j) →
    (List.replicate k e).foldl operateStep s =
      { s with others := some (e, j + k) } := by
  intro k
  induction k with
  | zero =>
    intro e j s _ _ _ _ _ _ ho
    show s = { s with others := some (e, j + 0) }
    cases s
    cases ho
    rfl
  | succ k ih =>
    intro e j s hcat h1 h2 h3 h4 h5 ho
    obtain ⟨hc, hv, hvs, hh, hhs, hr, _⟩ := categorize_mother e e hcat
    show (List.replicate k e).foldl operateStep (operateStep s e) = _
    rw [step_other_same s e j hc hv hvs hh hhs hr ho]
    have hclean : { s with
        result := s.result ++ charDelta s.chars ++ vertDelta s.vertical ++
          vscrollDelta s.verticalScroll ++ horizDelta s.horizontal ++
          hscrollDelta s.horizontalScroll,
        chars := [],
        vertical := (0, 0),
        horizontal := (0, 0),
        verticalScroll := (0, 0),
        horizontalScroll := (0, 0),
        others := some (e, j + 1) } =
        { s with others := some (e, j + 1) } := by
      cases s
      simp_all [charDelta, vertDelta, horizDelta, vscrollDelta, hscrollDelta]
    rw [hclean]
    rw [ih e (j + 1) { s with others := some (e, j + 1) } hcat h1 h2 h3 h4 h5
      rfl]
    have harith : j + 1 + k = j + (k + 1) := by omega
    rw [harith]

/-- A non-empty run of one repeated "other" event yields exactly one
operation carrying the repeat count. -/
theorem operate_other_run (e : Event) (k : Nat)
    (hcat : categorize e = ECat.mother e) (hk : 0 < k) :
    operate (List.replicate k e) = [.buffer (.other e k)] := by
  obtain ⟨hc, hv, hvs, hh, hhs, hr, _⟩ := categorize_mother e e hcat
  obtain ⟨j, rfl⟩ : ∃ j, k = j + 1 := ⟨k - 1, by omega⟩
  have hnr : ∀ x ∈ List.replicate (j + 1) e, isResizeEvt x = false := by
    intro x hx
    rw [List.eq_of_mem_replicate hx]
    exact hr
  rw [operate_no_resize _ hnr]
  show (flush_all_buffers ((List.replicate (j + 1) e).foldl operateStep
    initOperatorState)).result = _
  have hfirst : (List.replicate (j + 1) e).foldl operateStep
      initOperatorState =
      (List.replicate j e).foldl operateStep
        (operateStep initOperatorState e) := rfl
  rw [hfirst, step_other_none initOperatorState e hc hv hvs hh hhs hr rfl]
  have hinit1 : { initOperatorState with
      result := initOperatorState.result ++
        charDelta initOperatorState.chars ++
        vertDelta initOperatorState.vertical ++
        vscrollDelta initOperatorState.verticalScroll ++
        horizDelta initOperatorState.horizontal ++
        hscrollDelta initOperatorState.horizontalScroll,
      chars := [],
      vertical := (0, 0),
      horizontal := (0, 0),
      verticalScroll := (0, 0),
      horizontalScroll := (0, 0),
      others := some (e, 1) } =
      { initOperatorState with others := some (e, 1) } := rfl
  rw [hinit1]
  rw [foldl_other_run j e 1 { initOperatorState with others := some (e, 1) }
    hcat rfl rfl rfl rfl rfl rfl]
  rw [flush_all_result]
  simp [allDelta, initOperatorState, charDelta, vertDelta, horizDelta,
    vscrollDelta, hscrollDelta, othersDelta, Nat.add_comm]

/-- Crossing a category boundary inside a resize-free batch splits the
output: operations aggregated before the boundary are emitted, in order,
before any operation of the suffix, exactly as if the two parts were
processed separately. -/
theorem operate_append_boundary (xs : List Event) (x y : Event)
    (ys : List Event)
    (hnr : ∀ e ∈ xs ++ x :: y :: ys, isResizeEvt e = false)
    (hne : categorize x ≠ categorize y) :
    operate ((xs ++ [x]) ++ y :: ys) =
      operate (xs ++ [x]) ++ operate (y :: ys) := by
  have hnrx : isResizeEvt x = false :=
    hnr x (List.mem_append_right _ (List.mem_cons_self _ _))
  have hnry : isResizeEvt y = false :=
    hnr y (List.mem_append_right _
      (List.mem_cons_of_mem _ (List.mem_cons_self _ _)))
  have hnrys : ∀ e ∈ ys, isResizeEvt e = false := fun e he =>
    hnr e (List.mem_append_right _
      (List.mem_cons_of_mem _ (List.mem_cons_of_mem _ he)))
  have hnrS1 : ∀ e ∈ xs ++ [x], isResizeEvt e = false := by
    intro e he
    rcases List.mem_append.mp he with h | h
    · exact hnr e (List.mem_append_left _ h)
    · rw [List.mem_singleton] at h
      subst h
      exact hnrx
  have hnryys : ∀ e ∈ y :: ys, isResizeEvt e = false := by
    intro e he
    rcases List.mem_cons.mp he with h | h
    · subst h
      exact hnry
    · exact hnrys e h
  have hS1 : (xs ++ [x]).foldl operateStep initOperatorState =
      operateStep (xs.foldl operateStep initOperatorState) x := by
    rw [List.foldl_append]
    rfl
  have hact : onlyActive ((xs ++ [x]).foldl operateStep initOperatorState)
      (categorize x) := by
    rw [hS1]
    exact step_active _ x hnrx
  obtain ⟨_, _, hS1lr, hS1ri⟩ := foldl_split (xs ++ [x]) hnrS1
    initOperatorState
  have hbound := step_boundary ((xs ++ [x]).foldl operateStep
    initOperatorState) (categorize x) y hact hnry hne
  have hb : bufsOf (operateStep ((xs ++ [x]).foldl operateStep
      initOperatorState) y) = bufsOf (operateStep initOperatorState y) := by
    rw [hbound]
    rfl
  have h0 := step_boundary initOperatorState (categorize x) y
    (onlyActive_init (categorize x)) hnry hne
  have hY0res : (operateStep initOperatorState y).result = [] := by
    rw [h0]
    rfl
  have hY0lr : (operateStep initOperatorState y).lastResize = none := by
    rw [h0]
    rfl
  have hY0ri : (operateStep initOperatorState y).resizeIndex = none := by
    rw [h0]
    rfl
  have hfix : stateOfBufs (bufsOf (operateStep initOperatorState y)) =
      operateStep initOperatorState y :=
    stateOfBufs_fix _ hY0res hY0lr hY0ri
  obtain ⟨g1, g2, g3, g4⟩ := foldl_split ys hnrys
    (operateStep ((xs ++ [x]).foldl operateStep initOperatorState) y)
  rw [hb, hfix] at g1 g2
  have hstepres : (operateStep ((xs ++ [x]).foldl operateStep
      initOperatorState) y).result =
      ((xs ++ [x]).foldl operateStep initOperatorState).result ++
        allDelta ((xs ++ [x]).foldl operateStep initOperatorState) := by
    rw [hbound]
  have hsteplr : (operateStep ((xs ++ [x]).foldl operateStep
      initOperatorState) y).lastResize = none := by
    rw [hbound]
    exact hS1lr.trans rfl
  have hfoldL : ((xs ++ [x]) ++ y :: ys).foldl operateStep
      initOperatorState =
      ys.foldl operateStep (operateStep ((xs ++ [x]).foldl operateStep
        initOperatorState) y) := by
    rw [List.foldl_append]
    rfl
  have hXlr : (flush_all_buffers (ys.foldl operateStep (operateStep
      ((xs ++ [x]).foldl operateStep initOperatorState)
      y))).lastResize = none := by
    rw [flush_all_lr, g3]
    exact hsteplr
  have hopL : operate ((xs ++ [x]) ++ y :: ys) =
      (flush_all_buffers (ys.foldl operateStep (operateStep
        ((xs ++ [x]).foldl operateStep initOperatorState) y))).result := by
    rw [operate_def, hfoldL, hXlr]
  have hAD : allDelta (ys.foldl operateStep (operateStep
      ((xs ++ [x]).foldl operateStep initOperatorState) y)) =
      allDelta (ys.foldl operateStep (operateStep initOperatorState y)) :=
    allDelta_bufs _ _ g2
  have hXres : (flush_all_buffers (ys.foldl operateStep (operateStep
      ((xs ++ [x]).foldl operateStep initOperatorState) y))).result =
      (((xs ++ [x]).foldl operateStep initOperatorState).result ++
        allDelta ((xs ++ [x]).foldl operateStep initOperatorState)) ++
      ((ys.foldl operateStep (operateStep initOperatorState y)).result ++
        allDelta (ys.foldl operateStep (operateStep initOperatorState y))) := by
    rw [flush_all_result, g1, hstepres, hAD, List.append_assoc]
  have hR1 : operate (xs ++ [x]) =
      ((xs ++ [x]).foldl operateStep initOperatorState).result ++
        allDelta ((xs ++ [x]).foldl operateStep initOperatorState) := by
    rw [operate_no_resize _ hnrS1]
    exact flush_all_result _
  have hR2 : operate (y :: ys) =
      (ys.foldl operateStep (operateStep initOperatorState y)).result ++
        allDelta (ys.foldl operateStep (operateStep initOperatorState y)) := by
    rw [operate_no_resize _ hnryys]
    exact flush_all_result _
  rw [hopL, hXres, hR1, hR2]

set_option maxRecDepth 4096 in
/-- C2 (counterexample): in the batch resize(10,10), char 'a',
resize(20,20), the first resize occurs before any emitted operation, so
the claimed splice position (that of the first resize) would put the
debounced resize first; the code instead records the position at the last
resize, after the flushed character run, and emits the character run
first. -/
theorem claim_C2_counterexample :
    operate [Event.resize 10 10, charEvent 'a', Event.resize 20 20] =
      [.buffer (.key ['a']), .debounce (.resize 20 20)] ∧
    ¬ operate [Event.resize 10 10, charEvent 'a', Event.resize 20 20] =
      [.debounce (.resize 20 20), .buffer (.key ['a'])] := by
  constructor
  · decide
  · decide

/-- C2 (amended): for every finite input batch, `operate` emits at most
one debounced resize operation; when the batch contains at least one
resize event (here: the last one, with a resize-free suffix after it),
the emitted operation carries the width/height of that last resize and is
spliced into the output right after all operations flushed from the
events up to and including the last resize — i.e. at the position where
the *last* resize occurred — preserving relative ordering against the
non-resize operations. -/
theorem claim_C2_amended :
    (∀ events : List Event, countDebounce (operate events) ≤ 1) ∧
    (∀ (l : List Event) (w h : Nat) (r : List Event),
      (∀ e ∈ r, isResizeEvt e = false) →
      operate (l ++ Event.resize w h :: r) =
        operateCore l ++ EventStream.debounce (.resize w h) :: operate r) :=
  ⟨operate_countDebounce, operate_resize_split⟩

set_option maxRecDepth 4096 in
theorem claim_C2_witness :
    (∀ e ∈ [charEvent 'a'], isResizeEvt e = false) ∧
    operate [charEvent 'b', Event.resize 5 6, charEvent 'a'] =
      operateCore [charEvent 'b'] ++
        EventStream.debounce (.resize 5 6) :: operate [charEvent 'a'] :=
  ⟨by decide,
    claim_C2_amended.2 [charEvent 'b'] 5 6 [charEvent 'a'] (by decide)⟩

/-- C9: a run of k consecutive character events produces one
character-run operation of length k; a run of k identical non-character
"other" events produces one operation carrying count k; and interleaving
events of two distinct categories (in a resize-free batch) yields their
operations in arrival order, never merged across the interruption: the
output is the concatenation of the outputs of the two parts. -/
theorem claim_C9_aggregation :
    (∀ cs : List Char, cs ≠ [] →
      operate (cs.map charEvent) = [.buffer (.key cs)]) ∧
    (∀ (e : Event) (k : Nat), categorize e = ECat.mother e → 0 < k →
      operate (List.replicate k e) = [.buffer (.other e k)]) ∧
    (∀ (xs : List Event) (x y : Event) (ys : List Event),
      (∀ e ∈ xs ++ x :: y :: ys, isResizeEvt e = false) →
      categorize x ≠ categorize y →
      operate ((xs ++ [x]) ++ y :: ys) =
        operate (xs ++ [x]) ++ operate (y :: ys)) :=
  ⟨operate_char_run, operate_other_run, operate_append_boundary⟩

set_option maxRecDepth 4096 in
theorem claim_C9_witness :
    (['a', 'b'] ≠ ([] : List Char) ∧
      operate (['a', 'b'].map charEvent) = [.buffer (.key ['a', 'b'])]) ∧
    (categorize Event.focusGained = ECat.mother Event.focusGained ∧
      0 < 2 ∧
      operate (List.replicate 2 Event.focusGained) =
        [.buffer (.other Event.focusGained 2)]) ∧
    ((∀ e ∈ [charEvent 'a'] ++ charEvent 'b' :: Event.focusGained :: [],
        isResizeEvt e = false) ∧
      categorize (charEvent 'b') ≠ categorize Event.focusGained ∧
      operate (([charEvent 'a'] ++ [charEvent 'b']) ++
          Event.focusGained :: []) =
        operate ([charEvent 'a'] ++ [charEvent 'b']) ++
          operate (Event.focusGained :: [])) :=
  ⟨⟨by decide, claim_C9_aggregation.1 ['a', 'b'] (by decide)⟩,
   ⟨by decide, by decide,
     claim_C9_aggregation.2.1 Event.focusGained 2 (by decide) (by decide)⟩,
   ⟨by decide, by decide,
     claim_C9_aggregation.2.2 [charEvent 'a'] (charEvent 'b')
       Event.focusGained [] (by decide) (by decide)⟩⟩
